import Mathlib

/-!
# Verification of the QuickScore prompt reference implementation

A shallow embedding of `app.py` (the QuickScore Streamlit reference
implementation) together with proofs about its behaviour.

Strings are modelled as `List Char` (with `String` wrappers used at the
interfaces).  The Python regular expressions used by the word counter are
implemented directly as scanning functions over character lists, with the
exact leftmost / non-overlapping semantics of `re.sub`.  Case folding and
word-character tests are modelled for the ASCII range, matching the
characters that actually appear in the application's patterns.
-/

set_option maxRecDepth 40000

namespace QuickScore

/-! ## Character helpers -/

/-- Whitespace characters matched by Python's `\s` (and stripped by
`str.strip()`): the ASCII whitespace characters together with the Unicode
space separators. -/
def isPySpace (c : Char) : Bool :=
  c == ' ' || c == '\t' || c == '\n' || c == '\x0b' || c == '\x0c' || c == '\r' ||
  c == '\x1c' || c == '\x1d' || c == '\x1e' || c == '\x1f' || c == '\x85' || c == '\xa0' ||
  c == '\u1680' || ('\u2000' ≤ c && c ≤ '\u200a') || c == '\u2028' || c == '\u2029' ||
  c == '\u202f' || c == '\u205f' || c == '\u3000'

/-- ASCII lower-casing of one character, as performed by `str.lower()` on the
characters relevant to the level test. -/
def pyLowerChar (c : Char) : Char :=
  if 'A' ≤ c && c ≤ 'Z' then Char.ofNat (c.toNat + 32) else c

/-- Word characters for the regex `\b` boundary (ASCII range of `\w`). -/
def isWordChar (c : Char) : Bool :=
  ('a' ≤ c && c ≤ 'z') || ('A' ≤ c && c ≤ 'Z') || ('0' ≤ c && c ≤ '9') || c == '_'

/-- The character class `[1-9]` of the AC-code pattern. -/
def d19 (c : Char) : Bool := '1' ≤ c && c ≤ '9'

/-! ## List utilities shared by the embedded functions -/

/-- `prefixB pat l` decides whether `pat` is a prefix of `l`. -/
def prefixB : List Char → List Char → Bool
  | [], _ => true
  | _ :: _, [] => false
  | p :: ps, c :: cs => p == c && prefixB ps cs

/-- `containsSeqB pat l` decides whether `pat` occurs contiguously in `l`. -/
def containsSeqB (pat : List Char) : List Char → Bool
  | [] => prefixB pat []
  | c :: rest => prefixB pat (c :: rest) || containsSeqB pat rest

/-- Case-insensitive prefix test: `pat` is given lower-case and each input
character is lower-cased before comparison (regex `IGNORECASE`). -/
def ciPrefixB : List Char → List Char → Bool
  | [], _ => true
  | _ :: _, [] => false
  | p :: ps, c :: cs => p == pyLowerChar c && ciPrefixB ps cs

/-- Drop trailing Python whitespace. -/
def dropEndWs : List Char → List Char
  | [] => []
  | c :: rest =>
    if (dropEndWs rest).isEmpty then (if isPySpace c then [] else [c])
    else c :: dropEndWs rest

/-- Python `str.strip()`. -/
def pyStrip (l : List Char) : List Char := dropEndWs (l.dropWhile isPySpace)

/-- Python `str.strip()` on `String`. -/
def pyStripS (s : String) : String := ⟨pyStrip s.data⟩

/-- Worker for `collapseWs`; the flag records whether the previous character
was whitespace (so the run has already emitted its single space). -/
def collapseAux : Bool → List Char → List Char
  | _, [] => []
  | afterWs, c :: rest =>
    if isPySpace c then
      if afterWs then collapseAux true rest else ' ' :: collapseAux true rest
    else c :: collapseAux false rest

/-- `re.sub(r'\s+', ' ', l)`: replace every maximal whitespace run by one
space. -/
def collapseWs (l : List Char) : List Char := collapseAux false l

/-- Worker for `countWords`; the flag records whether we are inside a word. -/
def countWordsAux : Bool → List Char → Nat
  | _, [] => 0
  | inWord, c :: rest =>
    if isPySpace c then countWordsAux false rest
    else (if inWord then 0 else 1) + countWordsAux true rest

/-- Number of non-empty tokens of `re.split(r'[\s\n\r\t]+', l)`, i.e. the
number of maximal non-whitespace runs. -/
def countWords (l : List Char) : Nat := countWordsAux false l

/-! ### Normal-form predicates used in the proofs -/

/-- The first character, if any, is not whitespace. -/
def headOk : List Char → Bool
  | [] => true
  | c :: _ => !isPySpace c

/-- The last character, if any, is not whitespace. -/
def lastOk : List Char → Bool
  | [] => true
  | [c] => !isPySpace c
  | _ :: rest => lastOk rest

/-- Every whitespace character is a plain space followed by a non-space
character (no double spaces, no trailing space, no exotic whitespace). -/
def wsAllSingle : List Char → Bool
  | [] => true
  | c :: rest =>
    if isPySpace c then
      (c == ' ') &&
      (match rest with
       | [] => false
       | d :: _ => !isPySpace d) &&
      wsAllSingle rest
    else wsAllSingle rest

/-- Like `wsAllSingle` but a trailing space is allowed (the shape of
`collapseWs` output before trimming). -/
def wsSingleLoose : List Char → Bool
  | [] => true
  | c :: rest =>
    if isPySpace c then
      (c == ' ') &&
      (match rest with
       | [] => true
       | d :: _ => !isPySpace d) &&
      wsSingleLoose rest
    else wsSingleLoose rest

/-- Fully collapsed and trimmed text: what `re.sub(r'\s+', ' ', ...).strip()`
produces. -/
def tidy (l : List Char) : Bool := headOk l && wsAllSingle l

/-- Every `'<'` in the list is either immediately followed by `'>'` or has
no `'>'` anywhere after it — the shape `re.sub(r'<[^>]+>', '', ...)` leaves
behind. -/
def ltOk : List Char → Bool
  | [] => true
  | c :: rest =>
    if c = '<' then
      (match rest with
       | [] => true
       | d :: _ => if d = '>' then ltOk rest else !rest.contains '>')
    else ltOk rest

/-- Worker for `replaceL`: Python `str.replace` scanning left to right.  The
`Nat` argument is the number of already-matched pattern characters still to
be skipped after a replacement was emitted. -/
def replAux (p : Char) (pat rep : List Char) : Nat → List Char → List Char
  | _, [] => []
  | 0, c :: rest =>
    if c == p && prefixB pat rest then rep ++ replAux p pat rep pat.length rest
    else c :: replAux p pat rep 0 rest
  | k + 1, _ :: rest => replAux p pat rep k rest

/-- Python `l.replace(p :: pat, rep)`: replace every non-overlapping
occurrence of the pattern `p :: pat`, scanning left to right. -/
def replaceL (p : Char) (pat rep l : List Char) : List Char :=
  replAux p pat rep 0 l

/-- Suffix after the first `'>'`, if any. -/
def splitFirstGt : List Char → Option (List Char)
  | [] => none
  | c :: rest => if c == '>' then some rest else splitFirstGt rest

/-! ### `re.sub(r'<[^>]+>', '', ...)` -/

/-- Worker for `remTags`.  `none` means we are scanning outside a candidate
tag; `some buf` means a `'<'` has been seen and `buf` holds (reversed) the
characters read since.  If a `'>'` closes a non-empty candidate the whole
tag is dropped; a `"<>"` pair or an unterminated `'<'` is emitted verbatim,
exactly as the regex `<[^>]+>` leaves them in place. -/
def remTagsAux : Option (List Char) → List Char → List Char
  | none, [] => []
  | none, c :: rest =>
    if c == '<' then remTagsAux (some []) rest else c :: remTagsAux none rest
  | some buf, [] => '<' :: buf.reverse
  | some buf, c :: rest =>
    if c == '>' then
      if buf.isEmpty then '<' :: '>' :: remTagsAux none rest
      else remTagsAux none rest
    else remTagsAux (some (c :: buf)) rest

/-- `re.sub(r'<[^>]+>', '', l)`. -/
def remTags (l : List Char) : List Char := remTagsAux none l

/-! ### Removal of whole `<table ...> ... </table>` and `<s ...> ... </s>`
elements (`re.sub` with `[\s\S]*?`, case-insensitive) -/

/-- Suffix after the first case-insensitive occurrence of `close`
(given lower-case), if any. -/
def findCloseCi (close : List Char) : List Char → Option (List Char)
  | [] => none
  | c :: rest =>
    if ciPrefixB close (c :: rest) then some ((c :: rest).drop close.length)
    else findCloseCi close rest

/-- Attempt to match `<name\b[^>]*>[\s\S]*?</name>` (case-insensitive) whose
`'<'` has just been consumed; `rest` is the text after the `'<'`.  On
success, returns the suffix after the closing tag. -/
def tryElemAt (name close : List Char) (rest : List Char) : Option (List Char) :=
  if ciPrefixB name rest then
    match rest.drop name.length with
    | [] => none
    | d :: r3 =>
      if isWordChar d then none
      else
        match splitFirstGt (d :: r3) with
        | none => none
        | some afterGt => findCloseCi close afterGt
  else none

/-- Worker for `remElem`, fuelled so that the recursion is structural; the
fuel is at least the length of the list whenever the function is used. -/
def remElemAux (name close : List Char) : Nat → List Char → List Char
  | 0, l => l
  | _ + 1, [] => []
  | f + 1, c :: rest =>
    if c == '<' then
      match tryElemAt name close rest with
      | some afterClose => remElemAux name close f afterClose
      | none => c :: remElemAux name close f rest
    else c :: remElemAux name close f rest

/-- `re.sub(r'<name\b[^>]*>[\s\S]*?</name>', '', l, flags=re.IGNORECASE)`
with `name`/`close` given lower-case. -/
def remElem (name close : List Char) (l : List Char) : List Char :=
  remElemAux name close l.length l

/-- Removal of table elements with their content. -/
def remTable (l : List Char) : List Char :=
  remElem "table".data "</table>".data l

/-- Removal of strikethrough (`<s>`) elements with their content. -/
def remS (l : List Char) : List Char :=
  remElem "s".data "</s>".data l

/-! ### `re.sub(r'^AC\s?[1-9]\.[1-9]\s*', '', ..., flags=re.IGNORECASE)` -/

/-- Match `[1-9]\.[1-9]`, returning the remainder on success. -/
def acDigits : List Char → Option (List Char)
  | d1 :: p :: d2 :: rest =>
    if d19 d1 && p == '.' && d19 d2 then some rest else none
  | _ => none

/-- Match the anchored pattern `AC\s?[1-9]\.[1-9]` (case-insensitive),
returning the remainder after the second digit on success.  The optional
whitespace is forced exactly when the character after `AC` is whitespace,
which is how the backtracking of `\s?` resolves (whitespace is never a
digit). -/
def acMatch : List Char → Option (List Char)
  | a :: b :: rest =>
    if (a == 'A' || a == 'a') && (b == 'C' || b == 'c') then
      match rest with
      | w :: r2 => if isPySpace w then acDigits r2 else acDigits rest
      | [] => none
    else none
  | _ => none

/-- Strip a leading AC code together with the trailing `\s*`. -/
def stripAC (l : List Char) : List Char :=
  match acMatch l with
  | some rest => rest.dropWhile isPySpace
  | none => l

/-! ## The word counter of `app.py` -/

/-- `stripHtmlWithDOMParser` of `app.py` on `List Char`: reading the
applications inside-out follows the source lines top to bottom — strip, the
six space-inserting replaces, table and strikethrough element removal, tag
removal, AC-code stripping, the `&nbsp;` replacement, and the final
whitespace collapse with trim. -/
def stripHtmlCore (l : List Char) : List Char :=
  pyStrip (collapseWs
    (replaceL '&' "nbsp;".data " ".data
      (stripAC
        (remTags
          (remS
            (remTable
              (replaceL '<' "/p>".data "</p> ".data
                (replaceL '<' "p".data " <p".data
                  (replaceL '<' "/table>".data "</table> ".data
                    (replaceL '<' "/tr>".data "</tr> ".data
                      (replaceL '<' "/td>".data "</td> ".data
                        (replaceL '<' "/th>".data "</th> ".data
                          (pyStrip l)))))))))))))

/-- `stripHtmlWithDOMParser` on `String`. -/
def stripHtmlWithDOMParser (s : String) : String := ⟨stripHtmlCore s.data⟩

/-- `extractCountableWords` of `app.py`. -/
def extractCountableWords (text : List Char) : Nat :=
  if pyStrip text = [] then 0
  else countWords (pyStrip (stripHtmlCore (pyStrip text)))

/-- `calculateWordCount` of `app.py`. -/
def calculateWordCount (answer : String) : Nat :=
  if answer.data = [] then 0 else extractCountableWords answer.data

/-! ## Configuration and the completion client -/

/-- Python truthiness of an optional environment string (`os.getenv` returns
`None` when unset; `not x` is true for `None` and for `""`). -/
def truthy : Option String → Bool
  | none => false
  | some s => !s.isEmpty

/-- `validate_config` of `app.py`. -/
def validate_config (ep key : Option String) : Bool × String :=
  if !truthy ep then (false, "Missing environment variable: `openai_ai_endpoint`")
  else if !truthy key then (false, "Missing environment variable: `openai_api_key`")
  else (true, "")

/-- The parsed shape of an HTTP reply: its status code and the list of
`choices[i].message.content` strings of the JSON body. -/
structure HttpResponse where
  status : Nat
  choices : List String
deriving DecidableEq

/-- Outcome of one `call_azure_openai` invocation.  A `configError` models
the `ValueError` raised before any request; a `transportError` models the
`requests.exceptions.HTTPError` of `raise_for_status`; `shapeError` models
the lookup failure on a body with no choices. -/
inductive ApiOutcome where
  | ok (text : String)
  | configError (msg : String)
  | transportError (status : Nat)
  | shapeError
deriving DecidableEq

/-- `response.raise_for_status()` raises exactly for 4xx and 5xx codes. -/
def raiseForStatus (status : Nat) : Bool := 400 ≤ status && status < 600

/-- `call_azure_openai` of `app.py`, given the response the network would
deliver.  The second component counts the network requests performed (0 when
the configuration guard raises before `requests.post`). -/
def call_azure_openai (ep key : Option String) (resp : HttpResponse) :
    ApiOutcome × Nat :=
  if !truthy ep || !truthy key then
    (.configError "Azure OpenAI configuration is missing. Please set environment variables.", 0)
  else if raiseForStatus resp.status then (.transportError resp.status, 1)
  else
    match resp.choices with
    | [] => (.shapeError, 1)
    | c :: _ => (.ok (pyStripS c), 1)

/-! ## Selection state and the prompt templates -/

/-- The selector values available when the Submit handler runs.  `level` and
`answer` are always strings; `study_unit`, `assessment` and `question` are
`None` until the earlier selectors have been used (line 172 of `app.py`).
`feedback_summary_prompt_text` models the editable level-7 text area. -/
structure AppState where
  level : String
  study_unit : Option String
  assessment : Option String
  question : Option String
  answer : String
  feedback_summary_prompt_text : String
deriving DecidableEq

/-- Rendering of a value inside a Python f-string: `None` prints as the four
characters `None`. -/
def pyStr : Option String → String
  | none => "None"
  | some s => s

/-- Worker for `pyFind`: index of the first occurrence of `pat`. -/
def pyFindAux (pat : List Char) : List Char → Nat → Option Nat
  | [], i => if prefixB pat [] then some i else none
  | c :: rest, i =>
    if prefixB pat (c :: rest) then some i else pyFindAux pat rest (i + 1)

/-- Python `s.find(pat)`: first index of `pat` in `s`, or `-1`. -/
def pyFind (s pat : List Char) : Int :=
  match pyFindAux pat s 0 with
  | some i => (i : Int)
  | none => -1

/-- The level test used throughout `app.py`:
`level.lower().find("level 7") != -1`. -/
def levelIsL7 (level : String) : Bool :=
  pyFind (level.data.map pyLowerChar) "level 7".data != -1

/-- The shared header of all four templates, with the five already-rendered
field strings spliced in. -/
def prompt_header (level assessment study_unit question answer : String) : String :=
  "\ncertification level: " ++ level ++
  "\nAssessment criteria: " ++ assessment ++
  "\nStudy unit: " ++ study_unit ++
  "\nQuestion: " ++ question ++
  "\nSubmitted Answer: " ++ answer

/-- The level-7 validation template body (lines 257-265 of `app.py`). -/
def validation_body_level7 (level assessment study_unit question answer fst : String) :
    String :=
  prompt_header level assessment study_unit question answer ++
  "\n\n" ++ fst ++ "\n"

/-- The level-7 validation template applied to a selection state. -/
def validation_prompt_level7 (st : AppState) : String :=
  validation_body_level7 st.level (pyStr st.assessment) (pyStr st.study_unit)
    (pyStr st.question) st.answer st.feedback_summary_prompt_text

/-- The standard validation template body (lines 267-296 of `app.py`). -/
def validation_body_standard (level assessment study_unit question answer : String) :
    String :=
  prompt_header level assessment study_unit question answer ++
  "\n\nif submitted_answer is consist of more than 21 words then only do following if not then give output must be only\n" ++
  "\x27You are not quite on the right track. Submitted answer is not sufficient to do assessment. Please provide a more detailed answer\x27\n" ++
  "\nConsidering the provided certification level, assessment criteria, study unit, and Submitted Answer, Evaluate the submitted answer.\n" ++
  "Please Do not give any suggestions for improvement.\n" ++
  "Evaluate Submitted answer for Chartered Institute of Personnel and Development (CIPD) certification level.\n" ++
  "Give response in British English.\n" ++
  "Give response without deviating from their original content.\n" ++
  "\nDoes the Submitted Answer demonstrate sufficient knowledge, understanding, or skill as appropriate to meet the assessment criteria?\n" ++
  "Does at least one example included in Submitted Answer where required to support the answer?\n" ++
  "\nIf the submitted answer is too brief or insufficient, respond with\n" ++
  "\x27The submitted answer is not sufficient to meet the assessment criteria. Please provide a more detailed answer.\x27\n" ++
  "\nIf Yes then output must be only\n" ++
  "\x27You appear to be on the right track. Your answer aligns with the assessment criteria\x27\n" ++
  "and briefly acknowledge and summarise the user\x27s answer in one sentence without evaluation.\n" ++
  "\nIf No then output must be only\n" ++
  "\x27You are not quite on the right track yet. Your answer should align more with the assessment criteria\x27\n" ++
  "and briefly acknowledge and summarise the user\x27s answer in one sentence without evaluation.\n"

/-- The standard validation template applied to a selection state. -/
def validation_prompt_standard (st : AppState) : String :=
  validation_body_standard st.level (pyStr st.assessment) (pyStr st.study_unit)
    (pyStr st.question) st.answer

/-- `validation_prompt` of `app.py`. -/
def validation_prompt (st : AppState) : String :=
  if levelIsL7 st.level then validation_prompt_level7 st
  else validation_prompt_standard st

/-- The level-7 suggestion template body (lines 300-334 of `app.py`). -/
def suggestion_body_level7 (level assessment study_unit question answer : String) :
    String :=
  prompt_header level assessment study_unit question answer ++
  "\n\nUsing the provided certification level, Assessment criteria, Study unit, Question and Submitted Answer,\n" ++
  "offer brief suggestions for improvement in the Submitted Answer. Keep feedback concise - only 1-2 sentences per point.\n" ++
  "\nProvide constructive feedback addressed directly to \x27you\x27.\n" ++
  "Use British English.\n" ++
  "Do not use Markdown formatting.\n" ++
  "\nEvaluation criteria:\n" ++
  "1. Focus:\n" ++
  "   [1-2 sentences on addressing the command verb and linking to assessment criteria]\n" ++
  "\n2. Depth & breadth of understanding:\n" ++
  "   [1-2 sentences on developing points in depth and critical analysis]\n" ++
  "\n3. Strategic application & professional advice:\n" ++
  "   [1-2 sentences on organisational context and linking theory to practice]\n" ++
  "\n4. Research & wider reading:\n" ++
  "   [1-2 sentences on supporting points with sources and using recent evidence]\n" ++
  "\n5. Persuasiveness & originality:\n" ++
  "   [1-2 sentences on presenting a clear argument with independent thinking]\n" ++
  "\n6. Presentation & language:\n" ++
  "   [1-2 sentences on structure (Introduction, Main Body, Conclusion) and signposting]\n" ++
  "\nKeep each suggestion brief and actionable. Focus on the most important improvements needed.\n"

/-- The level-7 suggestion template applied to a selection state. -/
def suggestion_prompt_level7 (st : AppState) : String :=
  suggestion_body_level7 st.level (pyStr st.assessment) (pyStr st.study_unit)
    (pyStr st.question) st.answer

/-- The standard suggestion template body (lines 336-373 of `app.py`). -/
def suggestion_body_standard (level assessment study_unit question answer : String) :
    String :=
  prompt_header level assessment study_unit question answer ++
  "\n\nUsing the provided certification level, Assessment criteria, Study unit, Question and Submitted Answer,\n" ++
  "offer some suggestions in brief for improvement in the Submitted Answer so that the submitted answer\n" ++
  "should align well with the assessment criteria.\n" ++
  "\nThe learner is expected to provide their response as a written paragraph, using full sentences in an academic tone.\n" ++
  "They should not use bullet points or lists in their submitted answer.\n" ++
  "\nProvide constructive feedback addressed directly to \x27you\x27.\n" ++
  "Use British English.\n" ++
  "Do not use Markdown formatting.\n" ++
  "\nHere are some suggestions to improve your answer:\n" ++
  "\n1. Command verb identification:\n" ++
  "    - Suggestion text here.\n" ++
  "\n2. Answer structure:\n" ++
  "    - Suggestion text here.\n" ++
  "\n3. Coherence and clarity:\n" ++
  "    - Suggestion text here.\n" ++
  "\n4. Evidence and examples:\n" ++
  "    - Suggestion text here.\n" ++
  "\n5. Grammar and style:\n" ++
  "    - Suggestion text here.\n" ++
  "\n6. Feedback summary:\n" ++
  "    - Suggestion text here.\n"

/-- The standard suggestion template applied to a selection state. -/
def suggestion_prompt_standard (st : AppState) : String :=
  suggestion_body_standard st.level (pyStr st.assessment) (pyStr st.study_unit)
    (pyStr st.question) st.answer

/-- `suggestion_prompt` of `app.py`. -/
def suggestion_prompt (st : AppState) : String :=
  if levelIsL7 st.level then suggestion_prompt_level7 st
  else suggestion_prompt_standard st

/-! ## The Submit handler and the top-level script flow -/

/-- What the Submit handler renders: either the two response texts together
with the displayed word count, or the error branch of the `try`/`except`
block (all runtime errors are caught and rendered, never re-raised). -/
inductive SubmitOutcome where
  | success (validation : String) (wordCount : Nat) (suggestions : String)
  | apiError (e : ApiOutcome)
deriving DecidableEq

/-- The Submit handler (lines 403-440 of `app.py`), given the network's
response for each prompt.  The second component is the ordered list of
prompts passed to `call_azure_openai`. -/
def runSubmit (ep key : Option String) (st : AppState)
    (net : String → HttpResponse) : SubmitOutcome × List String :=
  match call_azure_openai ep key (net (validation_prompt st)) with
  | (.ok v, _) =>
    match call_azure_openai ep key (net (suggestion_prompt st)) with
    | (.ok sgs, _) =>
      (.success v (calculateWordCount st.answer) sgs,
       [validation_prompt st, suggestion_prompt st])
    | (e, _) => (.apiError e, [validation_prompt st, suggestion_prompt st])
  | (e, _) => (.apiError e, [validation_prompt st])

/-- Result of one run of the script body after the inputs are rendered:
either the configuration check failed and `st.stop()` halted the script
before the Submit button was drawn, or the page rendered (with the Submit
handler's result when the button was pressed). -/
inductive ScriptResult where
  | stoppedConfigError (msg : String)
  | rendered (submit : Option (SubmitOutcome × List String))
deriving DecidableEq

/-- The top-level flow of `app.py` from the configuration check onwards
(lines 378-440): on an invalid configuration the script stops before the
Submit button exists. -/
def runScript (ep key : Option String) (st : AppState) (submitClicked : Bool)
    (net : String → HttpResponse) : ScriptResult :=
  match validate_config ep key with
  | (false, msg) => .stoppedConfigError msg
  | (true, _) =>
    if submitClicked then .rendered (some (runSubmit ep key st net))
    else .rendered none

/-! ## Spec-side comparison definition for the missing-field behaviour -/

/-- Rendering of a possibly-missing field as the spec describes it: "a
missing field producing an empty substitution".  This definition follows the
spec's words and is compared against the `pyStr` substitution actually
performed by the f-strings of `app.py`. -/
def specEmptyField : Option String → String
  | none => ""
  | some s => s

/-- The validation prompt as the spec describes it for missing fields: the
same governed template text, but with a missing field substituted by the
empty string.  Follows the spec's words; compared against
`validation_prompt`. -/
def validation_prompt_specEmptySubst (st : AppState) : String :=
  if levelIsL7 st.level then
    validation_body_level7 st.level (specEmptyField st.assessment)
      (specEmptyField st.study_unit) (specEmptyField st.question) st.answer
      st.feedback_summary_prompt_text
  else
    validation_body_standard st.level (specEmptyField st.assessment)
      (specEmptyField st.study_unit) (specEmptyField st.question) st.answer

/-! ## Concrete fixtures used by witnesses and counterexamples -/

/-- A standard-variant selection state. -/
def sampleState : AppState :=
  ⟨"Level 5", some "U1", some "C1", some "Q1?", "one two three", ""⟩

/-- A level-7 selection state. -/
def sampleStateL7 : AppState :=
  ⟨"Level 7 Advanced", some "U7", some "C7", some "Q7?", "answer text", "rubric"⟩

/-- The state before any selector has been used: `study_unit`, `assessment`
and `question` are still `None` (line 172 of `app.py`). -/
def missingState : AppState :=
  ⟨"Select an option", none, none, none, "hi", ""⟩

/-- A network that always answers HTTP 200 with a verdict that does not
start with the gating phrase of the commented-out condition. -/
def offTrackNet : String → HttpResponse :=
  fun _ => ⟨200, ["You are not quite on the right track yet. Summary."]⟩

/-- A network that always answers HTTP 200 with a fixed text. -/
def okNet : String → HttpResponse := fun _ => ⟨200, ["ok"]⟩

/-- A network that always answers HTTP 500. -/
def failNet : String → HttpResponse := fun _ => ⟨500, ["irrelevant"]⟩

/-! # Theorems -/

/-! ## Character range facts -/

theorem isPySpace_toNat {c : Char} (h : isPySpace c = true) :
    c.toNat = 32 ∨ (9 ≤ c.toNat ∧ c.toNat ≤ 13) ∨ (28 ≤ c.toNat ∧ c.toNat ≤ 31) ∨
    c.toNat = 133 ∨ c.toNat = 160 ∨ c.toNat = 5760 ∨
    (8192 ≤ c.toNat ∧ c.toNat ≤ 8202) ∨ c.toNat = 8232 ∨ c.toNat = 8233 ∨
    c.toNat = 8239 ∨ c.toNat = 8287 ∨ c.toNat = 12288 := by
  unfold isPySpace at h
  simp only [Bool.or_eq_true, beq_iff_eq, Bool.and_eq_true, decide_eq_true_eq] at h
  rcases h with
    ((((((((((((((((((h|h)|h)|h)|h)|h)|h)|h)|h)|h)|h)|h)|h)|⟨h1,h2⟩)|h)|h)|h)|h)|h)
  all_goals try (subst h; decide)
  rw [Char.le_def] at h1 h2
  have g1 : 8192 ≤ c.toNat := h1
  have g2 : c.toNat ≤ 8202 := h2
  omega

theorem not_pySpace_of_range {c : Char} (h1 : 33 ≤ c.toNat) (h2 : c.toNat ≤ 126) :
    isPySpace c = false := by
  cases h : isPySpace c
  · rfl
  · exact absurd (isPySpace_toNat h) (by omega)

theorem d19_toNat {c : Char} (h : d19 c = true) : 49 ≤ c.toNat ∧ c.toNat ≤ 57 := by
  unfold d19 at h
  simp only [Bool.and_eq_true, decide_eq_true_eq] at h
  rcases h with ⟨h1, h2⟩
  rw [Char.le_def] at h1 h2
  exact ⟨h1, h2⟩

theorem d19_not_space {c : Char} (h : d19 c = true) : isPySpace c = false := by
  have hb := d19_toNat h
  exact not_pySpace_of_range (by omega) (by omega)

theorem d19_ne_of_toNat {c d : Char} (h : d19 c = true)
    (hd : d.toNat < 49 ∨ 57 < d.toNat) : c ≠ d := by
  have hb := d19_toNat h
  intro e
  rw [e] at hb
  omega

/-! ## `pyStrip` theory -/

theorem headOk_dropWhile (l : List Char) : headOk (l.dropWhile isPySpace) = true := by
  induction l with
  | nil => rfl
  | cons c rest ih =>
    rw [List.dropWhile_cons]
    cases h : isPySpace c
    · simp only [Bool.false_eq_true, if_false]
      simp [headOk, h]
    · simpa [h] using ih

theorem dropWhile_eq_self_of_headOk {l : List Char} (h : headOk l = true) :
    l.dropWhile isPySpace = l := by
  cases l with
  | nil => rfl
  | cons c rest =>
    unfold headOk at h
    rw [Bool.not_eq_eq_eq_not, Bool.not_true] at h
    simp [List.dropWhile_cons, h]

theorem lastOk_cons (c : Char) {l : List Char} (h : l ≠ []) :
    lastOk (c :: l) = lastOk l := by
  cases l with
  | nil => exact absurd rfl h
  | cons d r => rfl

theorem lastOk_append (xs : List Char) {ys : List Char} (h : ys ≠ []) :
    lastOk (xs ++ ys) = lastOk ys := by
  induction xs with
  | nil => rfl
  | cons c rest ih =>
    have hne : rest ++ ys ≠ [] := by
      intro e
      rcases List.append_eq_nil.mp e with ⟨_, e2⟩
      exact h e2
    rw [List.cons_append, lastOk_cons c hne, ih]

theorem dropEndWs_eq_self {l : List Char} : lastOk l = true → dropEndWs l = l := by
  induction l with
  | nil => intro _; rfl
  | cons c rest ih =>
    intro h
    cases rest with
    | nil =>
      unfold lastOk at h
      rw [Bool.not_eq_eq_eq_not, Bool.not_true] at h
      simp [dropEndWs, h]
    | cons d r2 =>
      rw [lastOk_cons c (by simp)] at h
      have hr := ih h
      rw [dropEndWs, hr]
      simp

theorem lastOk_dropEndWs (l : List Char) : lastOk (dropEndWs l) = true := by
  induction l with
  | nil => rfl
  | cons c rest ih =>
    rw [dropEndWs]
    cases he : (dropEndWs rest).isEmpty
    · simp only [Bool.false_eq_true, if_false]
      rw [lastOk_cons c (by simpa [List.isEmpty_iff] using he)]
      exact ih
    · simp only [if_true]
      cases hc : isPySpace c
      · simp [lastOk, hc]
      · simp [lastOk]

theorem headOk_dropEndWs {l : List Char} (h : headOk l = true) :
    headOk (dropEndWs l) = true := by
  cases l with
  | nil => rfl
  | cons c rest =>
    rw [dropEndWs]
    cases he : (dropEndWs rest).isEmpty
    · simpa [headOk] using h
    · cases hc : isPySpace c
      · simpa [hc, headOk] using h
      · simp [hc, headOk]

theorem lastOk_dropWhile (l : List Char) :
    lastOk l = true → lastOk (l.dropWhile isPySpace) = true := by
  induction l with
  | nil => intro _; rfl
  | cons c rest ih =>
    intro h
    rw [List.dropWhile_cons]
    cases hc : isPySpace c
    · simpa using h
    · simp only [if_true]
      cases rest with
      | nil => simp [lastOk, hc] at h
      | cons d r2 =>
        rw [lastOk_cons c (by simp)] at h
        exact ih h

theorem pyStrip_headOk (l : List Char) : headOk (pyStrip l) = true :=
  headOk_dropEndWs (headOk_dropWhile l)

theorem pyStrip_lastOk (l : List Char) : lastOk (pyStrip l) = true :=
  lastOk_dropEndWs _

theorem pyStrip_eq_self {l : List Char} (h1 : headOk l = true) (h2 : lastOk l = true) :
    pyStrip l = l := by
  unfold pyStrip
  rw [dropWhile_eq_self_of_headOk h1, dropEndWs_eq_self h2]

theorem pyStrip_idem (l : List Char) : pyStrip (pyStrip l) = pyStrip l :=
  pyStrip_eq_self (pyStrip_headOk l) (pyStrip_lastOk l)

/-! ## The pipeline steps do nothing on text without their trigger characters -/

theorem replAux_id0 (p : Char) (pat rep : List Char) {l : List Char} (h : p ∉ l) :
    replAux p pat rep 0 l = l := by
  induction l with
  | nil => rfl
  | cons c rest ih =>
    simp only [List.mem_cons, not_or] at h
    have hc : (c == p) = false := beq_eq_false_iff_ne.mpr (fun e => h.1 e.symm)
    rw [replAux]
    simp only [hc, Bool.false_and, Bool.false_eq_true, if_false]
    rw [ih h.2]

theorem replaceL_id (p : Char) (pat rep : List Char) {l : List Char} (h : p ∉ l) :
    replaceL p pat rep l = l :=
  replAux_id0 p pat rep h

theorem replAux_skip (p : Char) (pat rep : List Char) {xs : List Char} (h : p ∉ xs)
    (ys : List Char) :
    replAux p pat rep 0 (xs ++ ys) = xs ++ replAux p pat rep 0 ys := by
  induction xs with
  | nil => rfl
  | cons c rest ih =>
    simp only [List.mem_cons, not_or] at h
    have hc : (c == p) = false := beq_eq_false_iff_ne.mpr (fun e => h.1 e.symm)
    rw [List.cons_append, replAux]
    simp only [hc, Bool.false_and, Bool.false_eq_true, if_false]
    rw [ih h.2, List.cons_append]

theorem remTags_id {l : List Char} (h : '<' ∉ l) : remTags l = l := by
  unfold remTags
  induction l with
  | nil => rfl
  | cons c rest ih =>
    simp only [List.mem_cons, not_or] at h
    have hc : (c == '<') = false := beq_eq_false_iff_ne.mpr (fun e => h.1 e.symm)
    rw [remTagsAux]
    simp only [hc, Bool.false_eq_true, if_false]
    rw [ih h.2]

theorem remElemAux_id (name close : List Char) {l : List Char} (h : '<' ∉ l) :
    ∀ f, remElemAux name close f l = l := by
  induction l with
  | nil => intro f; cases f <;> rfl
  | cons c rest ih =>
    intro f
    cases f with
    | zero => rfl
    | succ f =>
      simp only [List.mem_cons, not_or] at h
      have hcb : (c == '<') = false :=
        beq_eq_false_iff_ne.mpr (fun e => h.1 e.symm)
      rw [remElemAux]
      simp only [hcb, Bool.false_eq_true, if_false]
      rw [ih h.2 f]

theorem remTable_id {l : List Char} (h : '<' ∉ l) : remTable l = l :=
  remElemAux_id _ _ h _

theorem remS_id {l : List Char} (h : '<' ∉ l) : remS l = l :=
  remElemAux_id _ _ h _

theorem stripAC_id {l : List Char} (h : acMatch l = none) : stripAC l = l := by
  unfold stripAC
  rw [h]

/-- On AC-free, bracket-free, trimmed text the whole normalizer is just the
final entity replacement and whitespace collapse. -/
theorem stripHtmlCore_plain {l : List Char} (hlt : '<' ∉ l)
    (htrim : pyStrip l = l) (hac : acMatch l = none) :
    stripHtmlCore l =
      pyStrip (collapseWs (replaceL '&' "nbsp;".data " ".data l)) := by
  unfold stripHtmlCore
  rw [htrim,
    replaceL_id '<' "/th>".data "</th> ".data hlt,
    replaceL_id '<' "/td>".data "</td> ".data hlt,
    replaceL_id '<' "/tr>".data "</tr> ".data hlt,
    replaceL_id '<' "/table>".data "</table> ".data hlt,
    replaceL_id '<' "p".data " <p".data hlt,
    replaceL_id '<' "/p>".data "</p> ".data hlt,
    remTable_id hlt, remS_id hlt, remTags_id hlt, stripAC_id hac]

/-- On bracket-free text whose leading AC code matches, the normalizer strips
the code (with its trailing whitespace) and then behaves as on plain text. -/
theorem stripHtmlCore_of_acMatch {l tl : List Char} (hlt : '<' ∉ l)
    (htrim : pyStrip l = l) (hm : acMatch l = some tl) :
    stripHtmlCore l =
      pyStrip (collapseWs (replaceL '&' "nbsp;".data " ".data
        (tl.dropWhile isPySpace))) := by
  unfold stripHtmlCore
  rw [htrim,
    replaceL_id '<' "/th>".data "</th> ".data hlt,
    replaceL_id '<' "/td>".data "</td> ".data hlt,
    replaceL_id '<' "/tr>".data "</tr> ".data hlt,
    replaceL_id '<' "/table>".data "</table> ".data hlt,
    replaceL_id '<' "p".data " <p".data hlt,
    replaceL_id '<' "/p>".data "</p> ".data hlt,
    remTable_id hlt, remS_id hlt, remTags_id hlt]
  unfold stripAC
  rw [hm]

/-! ## The anchored AC-code match on an explicit code -/

theorem acMatch_prefix {a b d1 d2 : Char} (sp : Bool) (tail : List Char)
    (ha : (a == 'A' || a == 'a') = true) (hb : (b == 'C' || b == 'c') = true)
    (hd1 : d19 d1 = true) (hd2 : d19 d2 = true) :
    acMatch (a :: b :: ((if sp then [' '] else []) ++ (d1 :: '.' :: d2 :: tail))) =
      some tail := by
  cases sp
  · simp only [Bool.false_eq_true, if_false, List.nil_append]
    simp [acMatch, ha, hb, acDigits, hd1, hd2, d19_not_space hd1]
  · simp only [if_true, List.cons_append]
    simp [acMatch, ha, hb, acDigits, hd1, hd2,
      show isPySpace ' ' = true from rfl]

/-! ## Unfolding the word counter on explicit character lists -/

theorem calculateWordCount_mk (l : List Char) :
    calculateWordCount ⟨l⟩ = if l = [] then 0 else extractCountableWords l := rfl

theorem extractCountableWords_eq (l : List Char) :
    extractCountableWords l =
      if pyStrip l = [] then 0
      else countWords (pyStrip (stripHtmlCore (pyStrip l))) := rfl

/-! ## C5: stripping of a leading AC code -/

/-- C5 counterexample: `"AC0.1 This is fine"` begins with "AC" + a digit +
"." + a digit + a space — the pattern as the claim states it — but the
code's character class is `[1-9]`, so nothing is stripped: the code is
counted as a fourth word instead of being removed. -/
theorem c5_zero_digit_counterexample :
    calculateWordCount "AC0.1 This is fine" = 4 ∧
    calculateWordCount "AC0.1 This is fine" ≠ calculateWordCount "This is fine" := by
  constructor
  · decide
  · decide

/-- C5 (amended): a leading code of shape `A`/`a`, `C`/`c`, an optional
space, a nonzero digit, `.`, a nonzero digit and a trailing space is
stripped before counting, so the count equals that of the remainder alone
(for remainders without `'<'`, already trimmed, and not themselves starting
with an AC code); and the stripping is case-insensitive and anchored: the
spec's example counts 3, `"ac 3.4 one two"` counts 2, and a non-leading
`"AC1.2"` is counted as an ordinary word. -/
theorem c5_amended_ac_strip :
    (∀ (a b d1 d2 : Char) (sp : Bool) (rest : List Char),
      (a == 'A' || a == 'a') = true → (b == 'C' || b == 'c') = true →
      d19 d1 = true → d19 d2 = true →
      '<' ∉ rest → pyStrip rest = rest → acMatch rest = none →
      calculateWordCount
          ⟨a :: b :: ((if sp then [' '] else []) ++ (d1 :: '.' :: d2 :: ' ' :: rest))⟩ =
        calculateWordCount ⟨rest⟩) ∧
    calculateWordCount "AC1.2 This is fine" = 3 ∧
    calculateWordCount "ac 3.4 one two" = 2 ∧
    calculateWordCount "hello AC1.2 world" = 3 := by
  refine ⟨?_, by decide, by decide, by decide⟩
  intro a b d1 d2 sp rest ha hb hd1 hd2 hlt htrim hac
  have ha' : a = 'A' ∨ a = 'a' := by simpa using ha
  have hb' : b = 'C' ∨ b = 'c' := by simpa using hb
  have hsa : isPySpace a = false := by rcases ha' with h|h <;> subst h <;> decide
  have hsb : isPySpace b = false := by rcases hb' with h|h <;> subst h <;> decide
  have hna : a ≠ '<' := by rcases ha' with h|h <;> subst h <;> decide
  have hnb : b ≠ '<' := by rcases hb' with h|h <;> subst h <;> decide
  have hsd1 : isPySpace d1 = false := d19_not_space hd1
  have hsd2 : isPySpace d2 = false := d19_not_space hd2
  have hnd1 : d1 ≠ '<' := d19_ne_of_toNat hd1 (Or.inr (by decide))
  have hnd2 : d2 ≠ '<' := d19_ne_of_toNat hd2 (Or.inr (by decide))
  have hsep : '<' ∉ (if sp then ([' '] : List Char) else []) := by
    cases sp <;> decide
  have hltL : '<' ∉
      (a :: b :: ((if sp then [' '] else []) ++ (d1 :: '.' :: d2 :: ' ' :: rest))) := by
    intro hmem
    simp only [List.mem_cons, List.mem_append] at hmem
    rcases hmem with e | e | e | e | e | e | e | e
    · exact hna e.symm
    · exact hnb e.symm
    · exact hsep e
    · exact hnd1 e.symm
    · exact absurd e (by decide)
    · exact hnd2 e.symm
    · exact absurd e (by decide)
    · exact hlt e
  have hheadL : headOk
      (a :: b :: ((if sp then [' '] else []) ++ (d1 :: '.' :: d2 :: ' ' :: rest))) = true := by
    simp [headOk, hsa]
  rcases eq_or_ne rest [] with hrest | hrest
  · subst hrest
    have hM : pyStrip
        (a :: b :: ((if sp then [' '] else []) ++ (d1 :: '.' :: d2 :: ' ' :: []))) =
        a :: b :: ((if sp then [' '] else []) ++ [d1, '.', d2]) := by
      unfold pyStrip
      rw [dropWhile_eq_self_of_headOk hheadL]
      cases sp <;>
        simp [dropEndWs, hsa, hsb, hsd1, hsd2,
          show isPySpace ' ' = true from rfl, show isPySpace '.' = false from rfl]
    have hltM : '<' ∉ (a :: b :: ((if sp then [' '] else []) ++ [d1, '.', d2])) := by
      intro hmem
      simp only [List.mem_cons, List.mem_append, List.not_mem_nil, or_false] at hmem
      rcases hmem with e | e | e | e | e | e
      · exact hna e.symm
      · exact hnb e.symm
      · exact hsep e
      · exact hnd1 e.symm
      · exact absurd e (by decide)
      · exact hnd2 e.symm
    have hheadM : headOk (a :: b :: ((if sp then [' '] else []) ++ [d1, '.', d2])) = true := by
      simp [headOk, hsa]
    have hlastM : lastOk (a :: b :: ((if sp then [' '] else []) ++ [d1, '.', d2])) = true := by
      rw [lastOk_cons a (by simp), lastOk_cons b (by simp), lastOk_append _ (by simp),
        lastOk_cons d1 (by simp), lastOk_cons '.' (by simp)]
      simp [lastOk, hsd2]
    have htrimM := pyStrip_eq_self hheadM hlastM
    have hmatchM : acMatch (a :: b :: ((if sp then [' '] else []) ++ [d1, '.', d2])) =
        some [] := acMatch_prefix sp [] ha hb hd1 hd2
    have hcore := stripHtmlCore_of_acMatch hltM htrimM hmatchM
    rw [calculateWordCount_mk, calculateWordCount_mk]
    have hLne : (a :: b :: ((if sp then [' '] else []) ++ (d1 :: '.' :: d2 :: ' ' :: []))) ≠
        ([] : List Char) := by simp
    have hMne : (a :: b :: ((if sp then [' '] else []) ++ [d1, '.', d2])) ≠
        ([] : List Char) := by simp
    rw [if_neg hLne, if_pos rfl, extractCountableWords_eq, hM, if_neg hMne, hcore]
    rfl
  · have hhead : headOk rest = true := by rw [← htrim]; exact pyStrip_headOk rest
    have hlast : lastOk rest = true := by rw [← htrim]; exact pyStrip_lastOk rest
    have hlastL : lastOk
        (a :: b :: ((if sp then [' '] else []) ++ (d1 :: '.' :: d2 :: ' ' :: rest))) = true := by
      rw [lastOk_cons a (by simp), lastOk_cons b (by simp), lastOk_append _ (by simp),
        lastOk_cons d1 (by simp), lastOk_cons '.' (by simp), lastOk_cons d2 (by simp),
        lastOk_cons ' ' hrest]
      exact hlast
    have htrimL := pyStrip_eq_self hheadL hlastL
    have hmatchL : acMatch
        (a :: b :: ((if sp then [' '] else []) ++ (d1 :: '.' :: d2 :: ' ' :: rest))) =
        some (' ' :: rest) := acMatch_prefix sp (' ' :: rest) ha hb hd1 hd2
    have hdw : (' ' :: rest).dropWhile isPySpace = rest := by
      rw [List.dropWhile_cons]
      rw [if_pos (by decide)]
      exact dropWhile_eq_self_of_headOk hhead
    have hcoreL := stripHtmlCore_of_acMatch hltL htrimL hmatchL
    rw [hdw] at hcoreL
    have hcoreR := stripHtmlCore_plain hlt htrim hac
    have hLne : (a :: b :: ((if sp then [' '] else []) ++ (d1 :: '.' :: d2 :: ' ' :: rest))) ≠
        ([] : List Char) := by simp
    rw [calculateWordCount_mk, calculateWordCount_mk, if_neg hLne, if_neg hrest,
      extractCountableWords_eq, extractCountableWords_eq, htrimL, htrim,
      if_neg hLne, if_neg hrest, hcoreL, hcoreR, pyStrip_idem]

/-- Witness for the amended C5: applying the general statement to the spec's
own example strips the code, and the remainder counts 3. -/
theorem c5_amended_ac_strip_witness :
    calculateWordCount "AC1.2 This is fine" = calculateWordCount "This is fine" ∧
    calculateWordCount "This is fine" = 3 :=
  ⟨c5_amended_ac_strip.1 'A' 'C' '1' '2' false "This is fine".data (by decide) (by decide)
      (by decide) (by decide) (by decide) (by decide) (by decide),
   by decide⟩

/-! ## C7: table elements are removed with their whole content -/

theorem char_toNat_ofNat {n : Nat} (h : n < 0xd800) : (Char.ofNat n).toNat = n := by
  unfold Char.ofNat
  rw [dif_pos (Or.inl h)]
  rfl

theorem pyLowerChar_spec (c : Char) :
    pyLowerChar c = c ∨
    (97 ≤ (pyLowerChar c).toNat ∧ (pyLowerChar c).toNat ≤ 122) := by
  unfold pyLowerChar
  split
  · rename_i hc
    simp only [Bool.and_eq_true, decide_eq_true_eq] at hc
    rcases hc with ⟨h1, h2⟩
    rw [Char.le_def] at h1 h2
    have g1 : 65 ≤ c.toNat := h1
    have g2 : c.toNat ≤ 90 := h2
    right
    rw [char_toNat_ofNat (by omega)]
    omega
  · left; rfl

theorem pyLowerChar_ne_lt {c : Char} (h : c ≠ '<') : pyLowerChar c ≠ '<' := by
  rcases pyLowerChar_spec c with e | ⟨g1, g2⟩
  · rw [e]; exact h
  · intro e
    rw [e] at g1
    exact absurd g1 (by decide)

theorem splitFirstGt_length {l a : List Char} (h : splitFirstGt l = some a) :
    a.length < l.length := by
  induction l with
  | nil => cases h
  | cons c rest ih =>
    rw [splitFirstGt] at h
    split at h
    · injection h with h
      subst h
      simp [List.length_cons]
    · have := ih h
      simp only [List.length_cons]
      omega

theorem findCloseCi_length {close : List Char} :
    ∀ {l a : List Char}, findCloseCi close l = some a → a.length ≤ l.length := by
  intro l
  induction l with
  | nil => intro a h; cases h
  | cons c rest ih =>
    intro a h
    rw [findCloseCi] at h
    split at h
    · injection h with h
      subst h
      rw [List.length_drop]
      omega
    · have := ih h
      simp only [List.length_cons]
      omega

theorem tryElemAt_length {name close rest a : List Char}
    (h : tryElemAt name close rest = some a) : a.length ≤ rest.length := by
  unfold tryElemAt at h
  split at h
  · have hdl : (rest.drop name.length).length ≤ rest.length := by
      rw [List.length_drop]
      omega
    revert h hdl
    cases rest.drop name.length with
    | nil => intro h _; cases h
    | cons d r3 =>
      intro h hdl
      have h' : (if isWordChar d then none
          else
            match splitFirstGt (d :: r3) with
            | none => none
            | some afterGt => findCloseCi close afterGt) = some a := h
      split at h'
      · cases h'
      · cases hsp : splitFirstGt (d :: r3) with
        | none => rw [hsp] at h'; cases h'
        | some afterGt =>
          rw [hsp] at h'
          have l1 := findCloseCi_length h'
          have l2 := splitFirstGt_length hsp
          simp only [List.length_cons] at hdl l2
          omega
  · cases h

theorem remElemAux_fuel (name close : List Char) :
    ∀ (f f' : Nat) (l : List Char), l.length ≤ f → l.length ≤ f' →
      remElemAux name close f l = remElemAux name close f' l := by
  intro f
  induction f with
  | zero =>
    intro f' l hf _
    have : l = [] := List.eq_nil_of_length_eq_zero (by omega)
    subst this
    cases f' <;> rfl
  | succ f ih =>
    intro f' l hf hf'
    cases l with
    | nil => cases f' <;> rfl
    | cons c rest =>
      cases f' with
      | zero => simp at hf'
      | succ f2 =>
        rw [remElemAux, remElemAux]
        by_cases hc : (c == '<') = true
        · rw [if_pos hc, if_pos hc]
          cases ht : tryElemAt name close rest with
          | some a =>
            have hla := tryElemAt_length ht
            simp only [List.length_cons] at hf hf'
            exact ih f2 a (by omega) (by omega)
          | none =>
            simp only [List.length_cons] at hf hf'
            rw [ih f2 rest (by omega) (by omega)]
        · rw [if_neg hc, if_neg hc]
          simp only [List.length_cons] at hf hf'
          rw [ih f2 rest (by omega) (by omega)]

theorem remElem_skip (name close : List Char) {xs : List Char} (h : '<' ∉ xs)
    (ys : List Char) :
    remElem name close (xs ++ ys) = xs ++ remElem name close ys := by
  unfold remElem
  induction xs with
  | nil => simp
  | cons c rest ih =>
    simp only [List.mem_cons, not_or] at h
    have hcb : (c == '<') = false := beq_eq_false_iff_ne.mpr (fun e => h.1 e.symm)
    rw [List.cons_append,
      show ((c :: (rest ++ ys)).length) = (rest ++ ys).length + 1 from rfl,
      remElemAux]
    simp only [hcb, Bool.false_eq_true, if_false]
    rw [ih h.2, List.cons_append]

theorem remElem_cons_match {name close rest a : List Char}
    (h : tryElemAt name close rest = some a) :
    remElem name close ('<' :: rest) = remElem name close a := by
  unfold remElem
  rw [show (('<' :: rest).length) = rest.length + 1 from rfl, remElemAux]
  simp only [show (('<' : Char) == '<') = true from rfl, if_true]
  rw [h]
  exact remElemAux_fuel name close rest.length a.length a (tryElemAt_length h) le_rfl

theorem findCloseCi_skip {close : List Char} (hc : close ≠ [])
    (hhd : close.head hc = '<') {body : List Char}
    (hb : ∀ c ∈ body, pyLowerChar c ≠ '<') (ys : List Char) :
    findCloseCi close (body ++ ys) = findCloseCi close ys := by
  induction body with
  | nil => rfl
  | cons c rest ih =>
    simp only [List.mem_cons] at hb
    rw [List.cons_append, findCloseCi]
    have hci : ciPrefixB close (c :: (rest ++ ys)) = false := by
      cases close with
      | nil => exact absurd rfl hc
      | cons p ps =>
        simp only [List.head] at hhd
        subst hhd
        rw [ciPrefixB]
        have : (('<' : Char) == pyLowerChar c) = false :=
          beq_eq_false_iff_ne.mpr (fun e => hb c (Or.inl rfl) e.symm)
        rw [this]
        rfl
    rw [if_neg (by simp [hci]), ih (fun d hd => hb d (Or.inr hd))]

theorem tryTableAt_shape {body : List Char} (hb : '<' ∉ body) (rest : List Char) :
    tryElemAt "table".data "</table>".data
      ('t':: 'a':: 'b':: 'l':: 'e':: '>'::
        (body ++ ('<':: '/':: 't':: 'a':: 'b':: 'l':: 'e':: '>'::rest))) = some rest := by
  rw [show tryElemAt "table".data "</table>".data
      ('t':: 'a':: 'b':: 'l':: 'e':: '>'::
        (body ++ ('<':: '/':: 't':: 'a':: 'b':: 'l':: 'e':: '>'::rest))) =
      findCloseCi "</table>".data
        (body ++ ('<':: '/':: 't':: 'a':: 'b':: 'l':: 'e':: '>'::rest)) from rfl]
  rw [findCloseCi_skip (by decide) (by decide)
    (fun c hc => pyLowerChar_ne_lt (fun e => hb (e ▸ hc)))]
  rfl

theorem headOk_append_left {pre : List Char} (h : pre ≠ []) (X : List Char) :
    headOk (pre ++ X) = headOk pre := by
  cases pre with
  | nil => exact absurd rfl h
  | cons c rest => rfl

theorem append_ne_nil_left {pre : List Char} (h : pre ≠ []) (X : List Char) :
    pre ++ X ≠ [] := by
  intro e
  exact h (List.append_eq_nil.mp e).1

theorem stripHtmlCore_pyStrip (l : List Char) :
    stripHtmlCore (pyStrip l) = stripHtmlCore l := by
  unfold stripHtmlCore
  rw [pyStrip_idem]

/-- The heart of C7: on a table element embedded between bracket-free,
trimmed, non-empty context strings, the normalizer behaves exactly as on
the context strings joined by a single space — the table's entire content is
removed.  (The three conjuncts expose the trimming facts the callers at the
word-count level need.) -/
theorem stripHtmlCore_table {pre body post : List Char}
    (hpre : '<' ∉ pre) (hbody : '<' ∉ body) (hpost : '<' ∉ post)
    (htpre : pyStrip pre = pre) (htpost : pyStrip post = post)
    (hprene : pre ≠ []) (hpostne : post ≠ []) :
    pyStrip (pre ++ ('<':: 't':: 'a':: 'b':: 'l':: 'e':: '>'::
        (body ++ ('<':: '/':: 't':: 'a':: 'b':: 'l':: 'e':: '>'::post)))) =
      (pre ++ ('<':: 't':: 'a':: 'b':: 'l':: 'e':: '>'::
        (body ++ ('<':: '/':: 't':: 'a':: 'b':: 'l':: 'e':: '>'::post)))) ∧
    pyStrip (pre ++ ' ' :: post) = pre ++ ' ' :: post ∧
    stripHtmlCore (pre ++ ('<':: 't':: 'a':: 'b':: 'l':: 'e':: '>'::
        (body ++ ('<':: '/':: 't':: 'a':: 'b':: 'l':: 'e':: '>'::post)))) =
      stripHtmlCore (pre ++ ' ' :: post) := by
  have hheadpre : headOk pre = true := by rw [← htpre]; exact pyStrip_headOk pre
  have hlastpost : lastOk post = true := by rw [← htpost]; exact pyStrip_lastOk post
  have htrimL : pyStrip (pre ++ ('<':: 't':: 'a':: 'b':: 'l':: 'e':: '>'::
      (body ++ ('<':: '/':: 't':: 'a':: 'b':: 'l':: 'e':: '>'::post)))) =
      (pre ++ ('<':: 't':: 'a':: 'b':: 'l':: 'e':: '>'::
        (body ++ ('<':: '/':: 't':: 'a':: 'b':: 'l':: 'e':: '>'::post)))) := by
    apply pyStrip_eq_self
    · rw [headOk_append_left hprene]
      exact hheadpre
    · rw [lastOk_append pre (by simp), lastOk_cons '<' (by simp),
        lastOk_cons 't' (by simp), lastOk_cons 'a' (by simp), lastOk_cons 'b' (by simp),
        lastOk_cons 'l' (by simp), lastOk_cons 'e' (by simp), lastOk_cons '>' (by simp),
        lastOk_append body (by simp), lastOk_cons '<' (by simp), lastOk_cons '/' (by simp),
        lastOk_cons 't' (by simp), lastOk_cons 'a' (by simp), lastOk_cons 'b' (by simp),
        lastOk_cons 'l' (by simp), lastOk_cons 'e' (by simp), lastOk_cons '>' hpostne]
      exact hlastpost
  have htrimR : pyStrip (pre ++ ' ' :: post) = pre ++ ' ' :: post := by
    apply pyStrip_eq_self
    · rw [headOk_append_left hprene]
      exact hheadpre
    · rw [lastOk_append pre (by simp), lastOk_cons ' ' hpostne]
      exact hlastpost
  refine ⟨htrimL, htrimR, ?_⟩
  have hmid : '<' ∉ (' ' :: post) := by
    intro e
    simp only [List.mem_cons] at e
    rcases e with e | e
    · exact absurd e (by decide)
    · exact hpost e
  have hltR : '<' ∉ (pre ++ ' ' :: post) := by
    intro e
    rcases List.mem_append.mp e with e | e
    · exact hpre e
    · exact hmid e
  unfold stripHtmlCore
  rw [htrimL, htrimR]
  -- the six replaces leave the right-hand side untouched
  rw [replaceL_id '<' "/th>".data "</th> ".data hltR,
    replaceL_id '<' "/td>".data "</td> ".data hltR,
    replaceL_id '<' "/tr>".data "</tr> ".data hltR,
    replaceL_id '<' "/table>".data "</table> ".data hltR,
    replaceL_id '<' "p".data " <p".data hltR,
    replaceL_id '<' "/p>".data "</p> ".data hltR,
    remTable_id hltR, remS_id hltR, remTags_id hltR]
  -- left-hand side: pass each replace through the context and the two tags
  unfold replaceL
  have gOSthG : ∀ Z, replAux '<' "/th>".data "</th> ".data 0
      ('<':: 't':: 'a':: 'b':: 'l':: 'e':: '>'::Z) =
      '<':: 't':: 'a':: 'b':: 'l':: 'e':: '>':: replAux '<' "/th>".data "</th> ".data 0 Z :=
    fun Z => rfl
  have gCSthG : ∀ Z, replAux '<' "/th>".data "</th> ".data 0
      ('<':: '/':: 't':: 'a':: 'b':: 'l':: 'e':: '>'::Z) =
      '<':: '/':: 't':: 'a':: 'b':: 'l':: 'e':: '>':: replAux '<' "/th>".data "</th> ".data 0 Z :=
    fun Z => rfl
  rw [replAux_skip _ _ _ hpre, gOSthG (body ++ _), replAux_skip _ _ _ hbody,
    gCSthG post, replAux_id0 _ _ _ hpost]
  have gOStdG : ∀ Z, replAux '<' "/td>".data "</td> ".data 0
      ('<':: 't':: 'a':: 'b':: 'l':: 'e':: '>'::Z) =
      '<':: 't':: 'a':: 'b':: 'l':: 'e':: '>':: replAux '<' "/td>".data "</td> ".data 0 Z :=
    fun Z => rfl
  have gCStdG : ∀ Z, replAux '<' "/td>".data "</td> ".data 0
      ('<':: '/':: 't':: 'a':: 'b':: 'l':: 'e':: '>'::Z) =
      '<':: '/':: 't':: 'a':: 'b':: 'l':: 'e':: '>':: replAux '<' "/td>".data "</td> ".data 0 Z :=
    fun Z => rfl
  rw [replAux_skip _ _ _ hpre, gOStdG (body ++ _), replAux_skip _ _ _ hbody,
    gCStdG post, replAux_id0 _ _ _ hpost]
  have gOStrG : ∀ Z, replAux '<' "/tr>".data "</tr> ".data 0
      ('<':: 't':: 'a':: 'b':: 'l':: 'e':: '>'::Z) =
      '<':: 't':: 'a':: 'b':: 'l':: 'e':: '>':: replAux '<' "/tr>".data "</tr> ".data 0 Z :=
    fun Z => rfl
  have gCStrG : ∀ Z, replAux '<' "/tr>".data "</tr> ".data 0
      ('<':: '/':: 't':: 'a':: 'b':: 'l':: 'e':: '>'::Z) =
      '<':: '/':: 't':: 'a':: 'b':: 'l':: 'e':: '>':: replAux '<' "/tr>".data "</tr> ".data 0 Z :=
    fun Z => rfl
  rw [replAux_skip _ _ _ hpre, gOStrG (body ++ _), replAux_skip _ _ _ hbody,
    gCStrG post, replAux_id0 _ _ _ hpost]
  have gOStableG : ∀ Z, replAux '<' "/table>".data "</table> ".data 0
      ('<':: 't':: 'a':: 'b':: 'l':: 'e':: '>'::Z) =
      '<':: 't':: 'a':: 'b':: 'l':: 'e':: '>':: replAux '<' "/table>".data "</table> ".data 0 Z :=
    fun Z => rfl
  have gCStableG : ∀ Z, replAux '<' "/table>".data "</table> ".data 0
      ('<':: '/':: 't':: 'a':: 'b':: 'l':: 'e':: '>'::Z) =
      '<':: '/':: 't':: 'a':: 'b':: 'l':: 'e':: '>':: ' ':: replAux '<' "/table>".data "</table> ".data 0 Z :=
    fun Z => rfl
  rw [replAux_skip _ _ _ hpre, gOStableG (body ++ _), replAux_skip _ _ _ hbody,
    gCStableG post, replAux_id0 _ _ _ hpost]
  have gOp : ∀ Z, replAux '<' "p".data " <p".data 0
      ('<':: 't':: 'a':: 'b':: 'l':: 'e':: '>'::Z) =
      '<':: 't':: 'a':: 'b':: 'l':: 'e':: '>':: replAux '<' "p".data " <p".data 0 Z :=
    fun Z => rfl
  have gCp : ∀ Z, replAux '<' "p".data " <p".data 0
      ('<':: '/':: 't':: 'a':: 'b':: 'l':: 'e':: '>'::Z) =
      '<':: '/':: 't':: 'a':: 'b':: 'l':: 'e':: '>':: replAux '<' "p".data " <p".data 0 Z :=
    fun Z => rfl
  rw [replAux_skip _ _ _ hpre, gOp (body ++ _), replAux_skip _ _ _ hbody,
    gCp (' ' :: post), replAux_id0 _ _ _ hmid]
  have gOSpG : ∀ Z, replAux '<' "/p>".data "</p> ".data 0
      ('<':: 't':: 'a':: 'b':: 'l':: 'e':: '>'::Z) =
      '<':: 't':: 'a':: 'b':: 'l':: 'e':: '>':: replAux '<' "/p>".data "</p> ".data 0 Z :=
    fun Z => rfl
  have gCSpG : ∀ Z, replAux '<' "/p>".data "</p> ".data 0
      ('<':: '/':: 't':: 'a':: 'b':: 'l':: 'e':: '>'::Z) =
      '<':: '/':: 't':: 'a':: 'b':: 'l':: 'e':: '>':: replAux '<' "/p>".data "</p> ".data 0 Z :=
    fun Z => rfl
  rw [replAux_skip _ _ _ hpre, gOSpG (body ++ _), replAux_skip _ _ _ hbody,
    gCSpG (' ' :: post), replAux_id0 _ _ _ hmid]
  -- table element removal: drops the element, keeps the inserted space
  unfold remTable
  rw [remElem_skip _ _ hpre,
    remElem_cons_match (tryTableAt_shape hbody (' ' :: post)),
    show remElem "table".data "</table>".data (' ' :: post) = ' ' :: post
      from remElemAux_id _ _ hmid _,
    remS_id hltR, remTags_id hltR]

/-- C7: every word inside a table element — from the opening tag through the
matching closing tag — is excluded from the word count entirely: with the
table present the count equals the count of the surrounding text joined by a
single space (for bracket-free, trimmed, non-empty surrounding text and
bracket-free table content); and on the spec's own example, with nested row
and cell tags inside the table, the count is 2. -/
theorem c7_table_words_excluded :
    (∀ pre body post : List Char,
      '<' ∉ pre → '<' ∉ body → '<' ∉ post →
      pyStrip pre = pre → pyStrip post = post → pre ≠ [] → post ≠ [] →
      calculateWordCount
          ⟨pre ++ ('<':: 't':: 'a':: 'b':: 'l':: 'e':: '>'::
            (body ++ ('<':: '/':: 't':: 'a':: 'b':: 'l':: 'e':: '>'::post)))⟩ =
        calculateWordCount ⟨pre ++ ' ' :: post⟩) ∧
    calculateWordCount
      "Intro <table><tr><td>ignored words here</td></tr></table> Conclusion" = 2 := by
  refine ⟨?_, by decide⟩
  intro pre body post hpre hbody hpost htpre htpost hprene hpostne
  obtain ⟨htrimL, htrimR, hcore⟩ :=
    stripHtmlCore_table hpre hbody hpost htpre htpost hprene hpostne
  rw [calculateWordCount_mk, calculateWordCount_mk,
    if_neg (append_ne_nil_left hprene _), if_neg (append_ne_nil_left hprene _),
    extractCountableWords_eq, extractCountableWords_eq, htrimL, htrimR,
    if_neg (append_ne_nil_left hprene _), if_neg (append_ne_nil_left hprene _),
    hcore]

/-- Witness for C7's general statement at a concrete table: the words inside
the table are not counted. -/
theorem c7_table_words_excluded_witness :
    calculateWordCount
        ⟨"Intro".data ++ ('<':: 't':: 'a':: 'b':: 'l':: 'e':: '>'::
          ("ignored words here".data ++
            ('<':: '/':: 't':: 'a':: 'b':: 'l':: 'e':: '>'::"Conclusion".data)))⟩ =
      calculateWordCount ⟨"Intro".data ++ ' ' :: "Conclusion".data⟩ ∧
    calculateWordCount ⟨"Intro".data ++ ' ' :: "Conclusion".data⟩ = 2 :=
  ⟨c7_table_words_excluded.1 "Intro".data "ignored words here".data "Conclusion".data
      (by decide) (by decide) (by decide) (by decide) (by decide) (by decide) (by decide),
   by decide⟩

/-! ## Substring search: `s.find(pat) != -1` is the substring test -/

theorem pyFindAux_isSome (pat : List Char) :
    ∀ (s : List Char) (i : Nat), (pyFindAux pat s i).isSome = containsSeqB pat s := by
  intro s
  induction s with
  | nil =>
    intro i
    unfold pyFindAux containsSeqB
    cases prefixB pat [] <;> simp
  | cons c rest ih =>
    intro i
    unfold pyFindAux containsSeqB
    cases h : prefixB pat (c :: rest) <;> simp [h, ih]

theorem pyFind_ne_neg_one (s pat : List Char) :
    (pyFind s pat != -1) = containsSeqB pat s := by
  unfold pyFind
  rcases h : pyFindAux pat s 0 with _ | i
  · have hs := pyFindAux_isSome pat s 0
    rw [h] at hs
    simp at hs
    simp [← hs]
  · have hs := pyFindAux_isSome pat s 0
    rw [h] at hs
    simp at hs
    have hne : (i : Int) ≠ -1 := by omega
    rw [hs]
    simpa [bne_iff_ne] using hne

/-- C8: prompt-variant selection is exactly the case-insensitive substring
test for "level 7" on the level label, and it alone routes both the
validation and the suggestion prompt to the level-7 or the standard
template. -/
theorem c8_variant_routing (st : AppState) :
    (levelIsL7 st.level =
      containsSeqB "level 7".data (st.level.data.map pyLowerChar)) ∧
    (levelIsL7 st.level = true →
      validation_prompt st = validation_prompt_level7 st ∧
      suggestion_prompt st = suggestion_prompt_level7 st) ∧
    (levelIsL7 st.level = false →
      validation_prompt st = validation_prompt_standard st ∧
      suggestion_prompt st = suggestion_prompt_standard st) := by
  refine ⟨?_, ?_, ?_⟩
  · unfold levelIsL7
    exact pyFind_ne_neg_one _ _
  · intro h
    constructor <;> simp [validation_prompt, suggestion_prompt, h]
  · intro h
    constructor <;> simp [validation_prompt, suggestion_prompt, h]

/-- Witness for C8 at concrete levels: "Level 7 Advanced" (substring in the
middle of a longer label) routes to the level-7 templates, "Level 5" to the
standard ones. -/
theorem c8_variant_routing_witness :
    levelIsL7 "Level 7 Advanced" = true ∧
    validation_prompt sampleStateL7 = validation_prompt_level7 sampleStateL7 ∧
    suggestion_prompt sampleStateL7 = suggestion_prompt_level7 sampleStateL7 ∧
    levelIsL7 "Level 5" = false ∧
    validation_prompt sampleState = validation_prompt_standard sampleState :=
  ⟨by decide,
   ((c8_variant_routing sampleStateL7).2.1 (by decide)).1,
   ((c8_variant_routing sampleStateL7).2.1 (by decide)).2,
   by decide,
   ((c8_variant_routing sampleState).2.2 (by decide)).1⟩

/-! ## C2: two sequential completion calls on every successful validation -/

/-- C2: whenever the validation call succeeds, the submit handler performs
exactly two completion calls — the validation prompt first, then the
suggestion prompt — for every variant, every answer and every validation
response text; in particular neither the response content nor
`calculateWordCount answer` can suppress the second call. -/
theorem c2_exactly_two_calls (ep key : Option String) (st : AppState)
    (net : String → HttpResponse) (v : String) (n : Nat)
    (h : call_azure_openai ep key (net (validation_prompt st)) = (ApiOutcome.ok v, n)) :
    (runSubmit ep key st net).2 = [validation_prompt st, suggestion_prompt st] := by
  unfold runSubmit
  rw [h]
  rcases h2 : call_azure_openai ep key (net (suggestion_prompt st)) with ⟨o, m⟩
  cases o <;> simp

/-- Witness for C2: a concrete standard-variant submission with an HTTP 200
network; both prompts are sent, in order. -/
theorem c2_exactly_two_calls_witness :
    (runSubmit (some "e") (some "k") sampleState okNet).2 =
      [validation_prompt sampleState, suggestion_prompt sampleState] :=
  c2_exactly_two_calls (some "e") (some "k") sampleState okNet "ok" 1 (by decide)

/-! ## C1: the gating on the validation verdict is commented out -/

/-- C1 counterexample: a concrete standard-variant submission whose
validation response does not start with "You appear to be on the right
track" (the phrase of the commented-out gate, line 418 of `app.py`), yet
the suggestion call is still made: the call trace has both prompts. -/
theorem c1_gating_counterexample :
    levelIsL7 sampleState.level = false ∧
    (runSubmit (some "e") (some "k") sampleState offTrackNet).1 =
      SubmitOutcome.success "You are not quite on the right track yet. Summary." 3
        "You are not quite on the right track yet. Summary." ∧
    prefixB "You appear to be on the right track".data
      "You are not quite on the right track yet. Summary.".data = false ∧
    (runSubmit (some "e") (some "k") sampleState offTrackNet).2.length = 2 := by
  refine ⟨by decide, by decide, by decide, by decide⟩

/-- C1 (amended): in the standard variant the suggestion completion call is
made unconditionally once the validation call returns successfully — even
when the validation response does not start with the "on the right track"
phrase. -/
theorem c1_amended_suggestion_unconditional (ep key : Option String)
    (st : AppState) (net : String → HttpResponse) (v : String) (n : Nat)
    (hstd : levelIsL7 st.level = false)
    (hphrase : prefixB "You appear to be on the right track".data v.data = false)
    (h : call_azure_openai ep key (net (validation_prompt st)) = (ApiOutcome.ok v, n)) :
    suggestion_prompt st ∈ (runSubmit ep key st net).2 := by
  unfold runSubmit
  rw [h]
  rcases h2 : call_azure_openai ep key (net (suggestion_prompt st)) with ⟨o, m⟩
  cases o <;> simp

/-- Witness for the amended C1 at the concrete counterexample scenario. -/
theorem c1_amended_suggestion_unconditional_witness :
    suggestion_prompt sampleState ∈
      (runSubmit (some "e") (some "k") sampleState offTrackNet).2 :=
  c1_amended_suggestion_unconditional (some "e") (some "k") sampleState offTrackNet
    "You are not quite on the right track yet. Summary." 1
    (by decide) (by decide) (by decide)

/-! ## C9: a validation failure aborts the suggestion call -/

/-- C9: if the validation call fails with any error outcome, the suggestion
call is never made (the trace contains only the validation prompt), and the
submit handler returns the rendered error branch instead of crashing. -/
theorem c9_validation_failure_aborts (ep key : Option String) (st : AppState)
    (net : String → HttpResponse) (e : ApiOutcome) (n : Nat)
    (hfail : ∀ v, e ≠ ApiOutcome.ok v)
    (h : call_azure_openai ep key (net (validation_prompt st)) = (e, n)) :
    runSubmit ep key st net = (SubmitOutcome.apiError e, [validation_prompt st]) := by
  unfold runSubmit
  rw [h]
  cases e with
  | ok v => exact absurd rfl (hfail v)
  | configError m => rfl
  | transportError s => rfl
  | shapeError => rfl

/-- Witness for C9: an HTTP 500 on the validation call yields the rendered
transport error and a single-prompt trace. -/
theorem c9_validation_failure_aborts_witness :
    runSubmit (some "e") (some "k") sampleState failNet =
      (SubmitOutcome.apiError (ApiOutcome.transportError 500),
       [validation_prompt sampleState]) :=
  c9_validation_failure_aborts (some "e") (some "k") sampleState failNet
    (ApiOutcome.transportError 500) 1 (fun v hv => by cases hv) (by decide)

/-! ## C10: the configuration gate runs before the Submit button exists -/

/-- C10: with a missing endpoint or key the script stops (with the
configuration error) before the Submit button is drawn, and whenever the
configuration check passes, every `call_azure_openai` invocation issues its
network request and can never return the missing-configuration error. -/
theorem c10_config_gate (ep key : Option String) (st : AppState)
    (click : Bool) (net : String → HttpResponse) :
    (truthy ep = false ∨ truthy key = false →
      ∃ msg, runScript ep key st click net = ScriptResult.stoppedConfigError msg) ∧
    ((validate_config ep key).1 = true →
      runScript ep key st true net =
        ScriptResult.rendered (some (runSubmit ep key st net)) ∧
      ∀ resp : HttpResponse, (call_azure_openai ep key resp).2 = 1 ∧
        ∀ m, (call_azure_openai ep key resp).1 ≠ ApiOutcome.configError m) := by
  constructor
  · intro h
    rcases h with h | h
    · refine ⟨"Missing environment variable: `openai_ai_endpoint`", ?_⟩
      simp [runScript, validate_config, h]
    · cases hep : truthy ep
      · refine ⟨"Missing environment variable: `openai_ai_endpoint`", ?_⟩
        simp [runScript, validate_config, hep]
      · refine ⟨"Missing environment variable: `openai_api_key`", ?_⟩
        simp [runScript, validate_config, hep, h]
  · intro h
    have hep : truthy ep = true := by
      cases hep : truthy ep
      · rw [validate_config] at h
        simp [hep] at h
      · rfl
    have hk : truthy key = true := by
      cases hk : truthy key
      · rw [validate_config] at h
        simp [hep, hk] at h
      · rfl
    constructor
    · simp [runScript, validate_config, hep, hk]
    · intro resp
      constructor
      · unfold call_azure_openai
        rw [hep, hk]
        simp only [Bool.not_true, Bool.or_self, Bool.false_eq_true, if_false]
        cases hr : raiseForStatus resp.status
        · cases resp.choices <;> simp [hr]
        · simp [hr]
      · intro m
        unfold call_azure_openai
        rw [hep, hk]
        simp only [Bool.not_true, Bool.or_self, Bool.false_eq_true, if_false]
        cases hr : raiseForStatus resp.status
        · cases resp.choices <;> simp [hr]
        · simp [hr]

/-- Witness for C10: a missing endpoint stops the script; with both values
present the client always reaches the network. -/
theorem c10_config_gate_witness :
    (∃ msg, runScript none (some "k") sampleState true okNet =
      ScriptResult.stoppedConfigError msg) ∧
    (call_azure_openai (some "e") (some "k") ⟨200, ["ok"]⟩).2 = 1 :=
  ⟨(c10_config_gate none (some "k") sampleState true okNet).1 (Or.inl rfl),
   (((c10_config_gate (some "e") (some "k") sampleState true okNet).2
      (by decide)).2 ⟨200, ["ok"]⟩).1⟩

/-! ## C3: the completion client's outcomes -/

/-- C3 counterexample: HTTP 304 is not 2xx, yet `raise_for_status` does not
raise for it, so the client returns the body instead of a transport error. -/
theorem c3_non2xx_counterexample :
    call_azure_openai (some "https://e") (some "k") ⟨304, ["Body"]⟩ =
      (ApiOutcome.ok "Body", 1) := by decide

/-- C3 (amended): with missing configuration the client raises the
configuration error without any network request; with configuration present
a 4xx/5xx status raises a transport error carrying the status; a 200
response returns the first choice's content trimmed. -/
theorem c3_amended_client_contract (ep key : Option String) (resp : HttpResponse) :
    (truthy ep = false ∨ truthy key = false →
      call_azure_openai ep key resp =
        (ApiOutcome.configError
          "Azure OpenAI configuration is missing. Please set environment variables.", 0)) ∧
    (truthy ep = true → truthy key = true →
      400 ≤ resp.status → resp.status < 600 →
      call_azure_openai ep key resp = (ApiOutcome.transportError resp.status, 1)) ∧
    (∀ c cs, truthy ep = true → truthy key = true →
      resp.status = 200 → resp.choices = c :: cs →
      call_azure_openai ep key resp = (ApiOutcome.ok (pyStripS c), 1)) := by
  refine ⟨?_, ?_, ?_⟩
  · intro h
    unfold call_azure_openai
    rcases h with h | h <;> simp [h]
  · intro hep hk h4 h6
    unfold call_azure_openai
    rw [hep, hk]
    have hr : raiseForStatus resp.status = true := by
      unfold raiseForStatus
      simp [h4, h6]
    simp [hr]
  · intro c cs hep hk hs hc
    unfold call_azure_openai
    rw [hep, hk]
    have hr : raiseForStatus resp.status = false := by
      unfold raiseForStatus
      simp [hs]
    simp [hr, hc]

/-- Witness for the amended C3 at the spec's concrete scenarios: missing
configuration, HTTP 401, and a 200 response with content
`" Result text \n"` which is returned as `"Result text"`. -/
theorem c3_amended_client_contract_witness :
    call_azure_openai none none ⟨200, ["x"]⟩ =
      (ApiOutcome.configError
        "Azure OpenAI configuration is missing. Please set environment variables.", 0) ∧
    call_azure_openai (some "e") (some "k") ⟨401, ["x"]⟩ =
      (ApiOutcome.transportError 401, 1) ∧
    call_azure_openai (some "e") (some "k") ⟨200, [" Result text \n"]⟩ =
      (ApiOutcome.ok "Result text", 1) := by
  refine ⟨(c3_amended_client_contract none none ⟨200, ["x"]⟩).1 (Or.inl rfl),
    (c3_amended_client_contract (some "e") (some "k") ⟨401, ["x"]⟩).2.1 rfl rfl
      (by decide) (by decide), ?_⟩
  have h := (c3_amended_client_contract (some "e") (some "k")
    ⟨200, [" Result text \n"]⟩).2.2 " Result text \n" [] rfl rfl rfl rfl
  rw [h]
  decide

/-! ## C4: missing fields render as "None", not as the empty string -/

/-- C4 counterexample: before any selector has been used, the question field
is `None` and the rendered validation prompt contains the literal text
"Question: None"; it differs from the spec's empty-substitution rendering. -/
theorem c4_missing_field_counterexample :
    containsSeqB "Question: None".data (validation_prompt missingState).data = true ∧
    validation_prompt missingState ≠ validation_prompt_specEmptySubst missingState := by
  constructor
  · decide
  · decide

/-- C4 (amended): rendering never fails — it is a total function — and a
missing `study_unit`, `assessment` or `question` is substituted exactly as
the four-character text "None" (Python's `str(None)`), for the validation
and suggestion templates of both variants. -/
theorem c4_amended_none_substitution (level answer fst : String) :
    validation_prompt ⟨level, none, none, none, answer, fst⟩ =
      validation_prompt ⟨level, some "None", some "None", some "None", answer, fst⟩ ∧
    suggestion_prompt ⟨level, none, none, none, answer, fst⟩ =
      suggestion_prompt ⟨level, some "None", some "None", some "None", answer, fst⟩ :=
  ⟨rfl, rfl⟩

/-! ## C6: idempotence analysis of the normalizer

The normalizer is not idempotent (two counterexamples below: a second
leading AC code uncovered by the first strip, and a `"<p"` uncovered by
strikethrough removal).  It is idempotent on every output that avoids those
two shapes; the development below establishes the three invariants of the
normalizer's output — fully collapsed/trimmed text (`tidy`), the residual
bracket shape (`ltOk`), and the absence of `"&nbsp;"` — and shows each
pipeline stage is the identity on such text. -/

theorem contains_eq_false_of_not_mem {l : List Char} {c : Char} (h : c ∉ l) :
    l.contains c = false := by simpa using h

theorem prefixB_mem {pat l : List Char} (h : prefixB pat l = true) :
    ∀ c ∈ pat, c ∈ l := by
  induction pat generalizing l with
  | nil => intro c hc; cases hc
  | cons p ps ih =>
    cases l with
    | nil => cases h
    | cons d rest =>
      rw [prefixB] at h
      simp only [Bool.and_eq_true, beq_iff_eq] at h
      intro c hc
      rcases List.mem_cons.mp hc with e | e
      · subst e
        rw [h.1]
        exact List.mem_cons_self _ _
      · exact List.mem_cons_of_mem _ (ih h.2 c e)

theorem prefixB_append_ext {pat l : List Char} (w : List Char)
    (h : prefixB pat l = true) : prefixB pat (l ++ w) = true := by
  induction pat generalizing l with
  | nil => rfl
  | cons p ps ih =>
    cases l with
    | nil => cases h
    | cons d rest =>
      rw [prefixB] at h
      simp only [Bool.and_eq_true] at h
      rw [List.cons_append, prefixB, h.1, ih h.2]
      rfl

theorem containsSeqB_nil_pat (w : List Char) : containsSeqB [] w = true := by
  cases w with
  | nil => rfl
  | cons c rest => rw [containsSeqB, prefixB]; rfl

theorem containsSeqB_append_right {pat l₂ : List Char} (l₁ : List Char)
    (h : containsSeqB pat l₂ = true) : containsSeqB pat (l₁ ++ l₂) = true := by
  induction l₁ with
  | nil => exact h
  | cons c rest ih =>
    cases hl : rest ++ l₂ with
    | nil =>
      rw [hl] at ih
      cases l₂ with
      | nil =>
        rw [containsSeqB] at h
        cases pat with
        | nil => simp [containsSeqB_nil_pat]
        | cons p ps => cases h
      | cons x xs => cases (List.append_eq_nil.mp hl).2
    | cons x xs =>
      rw [List.cons_append, hl, containsSeqB, ← hl, ih]
      simp

theorem containsSeqB_append_left {pat l₁ : List Char} (w : List Char)
    (h : containsSeqB pat l₁ = true) : containsSeqB pat (l₁ ++ w) = true := by
  induction l₁ with
  | nil =>
    rw [containsSeqB] at h
    cases pat with
    | nil => exact containsSeqB_nil_pat _
    | cons p ps => cases h
  | cons c rest ih =>
    rw [containsSeqB] at h
    rw [List.cons_append, containsSeqB]
    simp only [Bool.or_eq_true] at h ⊢
    rcases h with h | h
    · left
      have := prefixB_append_ext w h
      rwa [List.cons_append] at this
    · right
      exact ih h

theorem ltOk_lt_cons (d : Char) (r : List Char) :
    ltOk ('<' :: d :: r) =
      (if d = '>' then ltOk (d :: r) else !(d :: r).contains '>') := rfl

theorem ltOk_cons_ne {c : Char} (h : ¬(c = '<')) (l : List Char) :
    ltOk (c :: l) = ltOk l := by
  rw [ltOk.eq_def]
  simp only [if_neg h]

theorem ltOk_lt_gt (l : List Char) : ltOk ('<' :: '>' :: l) = ltOk ('>' :: l) := by
  rw [ltOk_lt_cons, if_pos rfl]

theorem ltOk_lt_no_gt {rest : List Char} (h : '>' ∉ rest) :
    ltOk ('<' :: rest) = true := by
  cases rest with
  | nil => rfl
  | cons d r2 =>
    have hd : ¬(d = '>') := fun e => h (e ▸ List.mem_cons_self _ _)
    rw [ltOk_lt_cons, if_neg hd, contains_eq_false_of_not_mem h]
    rfl

theorem ltOk_of_no_gt {l : List Char} (h : '>' ∉ l) : ltOk l = true := by
  induction l with
  | nil => rfl
  | cons c rest ih =>
    simp only [List.mem_cons, not_or] at h
    by_cases hc : c = '<'
    · subst hc
      exact ltOk_lt_no_gt h.2
    · rw [ltOk_cons_ne hc]
      exact ih h.2

theorem ltOk_tail {c : Char} {l : List Char} (h : ltOk (c :: l) = true) :
    ltOk l = true := by
  by_cases hc : c = '<'
  · subst hc
    cases l with
    | nil => rfl
    | cons d r2 =>
      rw [ltOk_lt_cons] at h
      by_cases hd : d = '>'
      · rwa [if_pos hd] at h
      · rw [if_neg hd, Bool.not_eq_eq_eq_not, Bool.not_true] at h
        refine ltOk_of_no_gt ?_
        intro e
        rw [(by simpa using e : (d :: r2).contains '>' = true)] at h
        cases h
  · rwa [ltOk_cons_ne hc] at h

theorem ltOk_suffix {l₁ l₂ : List Char} (h : ltOk (l₁ ++ l₂) = true) :
    ltOk l₂ = true := by
  induction l₁ with
  | nil => exact h
  | cons c rest ih =>
    rw [List.cons_append] at h
    exact ih (ltOk_tail h)

theorem ltOk_drop_ws_end {w : List Char} (hw : '>' ∉ w) :
    ∀ {l : List Char}, ltOk (l ++ w) = true → ltOk l = true := by
  intro l
  induction l with
  | nil => intro _; rfl
  | cons c rest ih =>
    intro h
    by_cases hc : c = '<'
    · subst hc
      cases rest with
      | nil => rfl
      | cons d r2 =>
        rw [List.cons_append, List.cons_append, ltOk_lt_cons] at h
        rw [ltOk_lt_cons]
        by_cases hd : d = '>'
        · rw [if_pos hd] at h ⊢
          exact ih (by rw [List.cons_append]; exact h)
        · rw [if_neg hd] at h ⊢
          rw [Bool.not_eq_eq_eq_not, Bool.not_true] at h ⊢
          have hnm : '>' ∉ (d :: r2) := by
            intro e
            have hmm : ('>' : Char) ∈ d :: (r2 ++ w) := by
              rcases List.mem_cons.mp e with e | e
              · rw [e]
                exact List.mem_cons_self _ _
              · exact List.mem_cons_of_mem _ (List.mem_append.mpr (Or.inl e))
            rw [(by simpa using hmm : (d :: (r2 ++ w)).contains '>' = true)] at h
            cases h
          exact contains_eq_false_of_not_mem hnm
    · rw [List.cons_append, ltOk_cons_ne hc] at h
      rw [ltOk_cons_ne hc]
      exact ih h

/-- The replace scanner with a pending skip equals the scanner restarted
after the skipped characters. -/
theorem replAux_drop (p : Char) (pat rep : List Char) :
    ∀ (k : Nat) (l : List Char),
      replAux p pat rep k l = replAux p pat rep 0 (l.drop k) := by
  intro k
  induction k with
  | zero => intro l; rw [List.drop_zero]
  | succ k ih =>
    intro l
    cases l with
    | nil => rw [replAux]; rfl
    | cons c rest => rw [replAux, ih, List.drop_succ_cons]

theorem replaceL_match {p : Char} {pat rest : List Char} (rep : List Char)
    (h : prefixB pat rest = true) :
    replaceL p pat rep (p :: rest) =
      rep ++ replaceL p pat rep (rest.drop pat.length) := by
  unfold replaceL
  rw [replAux, if_pos (by simp [h]), replAux_drop]

theorem replaceL_nomatch {p : Char} {c : Char} {pat rest : List Char}
    (rep : List Char) (h : (c == p && prefixB pat rest) = false) :
    replaceL p pat rep (c :: rest) = c :: replaceL p pat rep rest := by
  unfold replaceL
  rw [replAux]
  simp only [h, Bool.false_eq_true, if_false]

theorem replaceL_id_of_no_occ (p : Char) (pat rep : List Char) :
    ∀ {l : List Char}, containsSeqB (p :: pat) l = false →
      replaceL p pat rep l = l := by
  intro l
  induction l with
  | nil => intro _; rfl
  | cons c rest ih =>
    intro h
    rw [containsSeqB] at h
    simp only [Bool.or_eq_false_iff] at h
    have hp : (c == p && prefixB pat rest) = false := by
      have h1 := h.1
      rw [prefixB] at h1
      by_cases hcp : c = p
      · subst hcp
        simp only [beq_self_eq_true, Bool.true_and] at h1 ⊢
        exact h1
      · rw [beq_eq_false_iff_ne.mpr hcp]
        rfl
    rw [replaceL_nomatch rep hp, ih h.2]

/-- On `ltOk` text there is no occurrence of any `'<' :: mid ++ ['>']`
pattern with a non-empty, `'>'`-free middle. -/
theorem ltOk_no_tag_occ {mid : List Char} (hne : mid ≠ []) (hng : '>' ∉ mid) :
    ∀ {l : List Char}, ltOk l = true →
      containsSeqB ('<' :: (mid ++ ['>'])) l = false := by
  intro l
  induction l with
  | nil => intro _; rfl
  | cons c rest ih =>
    intro h
    rw [containsSeqB, ih (ltOk_tail h)]
    have hpre : prefixB ('<' :: (mid ++ ['>'])) (c :: rest) = false := by
      rw [prefixB]
      by_cases hc : c = '<'
      · subst hc
        simp only [beq_self_eq_true, Bool.true_and]
        cases rest with
        | nil =>
          cases mid with
          | nil => exact absurd rfl hne
          | cons m ms => rfl
        | cons d r2 =>
          by_cases hd : d = '>'
          · subst hd
            cases mid with
            | nil => exact absurd rfl hne
            | cons m ms =>
              rw [List.cons_append, prefixB,
                beq_eq_false_iff_ne.mpr
                  (fun e => hng (by rw [← e]; exact List.mem_cons_self _ _))]
              rfl
          · rw [ltOk_lt_cons, if_neg hd, Bool.not_eq_eq_eq_not, Bool.not_true] at h
            cases hp : prefixB (mid ++ ['>']) (d :: r2)
            · rfl
            · exfalso
              have hmem : ('>' : Char) ∈ (d :: r2) :=
                prefixB_mem hp '>'
                  (List.mem_append.mpr (Or.inr (List.mem_cons_self _ _)))
              rw [(by simpa using hmem : (d :: r2).contains '>' = true)] at h
              cases h
      · rw [beq_eq_false_iff_ne.mpr (fun e => hc e.symm)]
        rfl
    rw [hpre]
    rfl

/-! ### Tag removal: output shape and identity on `ltOk` text -/

theorem remTagsAux_no_gt :
    ∀ {x : List Char} (buf : List Char), '>' ∉ x →
      remTagsAux (some buf) x = '<' :: (buf.reverse ++ x) := by
  intro x
  induction x with
  | nil =>
    intro buf _
    rw [remTagsAux, List.append_nil]
  | cons c rest ih =>
    intro buf h
    simp only [List.mem_cons, not_or] at h
    have hc : (c == '>') = false := beq_eq_false_iff_ne.mpr (fun e => h.1 e.symm)
    rw [remTagsAux]
    simp only [hc, Bool.false_eq_true, if_false]
    rw [ih (c :: buf) h.2]
    simp

theorem remTagsAux_ltOk :
    ∀ (x : List Char),
      ltOk (remTagsAux none x) = true ∧
      (∀ buf, '>' ∉ buf → ltOk (remTagsAux (some buf) x) = true) := by
  intro x
  induction x with
  | nil =>
    constructor
    · rfl
    · intro buf hb
      rw [remTagsAux]
      apply ltOk_of_no_gt
      intro e
      rcases List.mem_cons.mp e with e | e
      · exact absurd e (by decide)
      · exact hb (List.mem_reverse.mp e)
  | cons c rest ih =>
    constructor
    · rw [remTagsAux]
      by_cases hc : (c == '<') = true
      · rw [if_pos hc]
        exact ih.2 [] (by simp)
      · rw [if_neg hc]
        have hcc : ¬(c = '<') := fun e => hc (by rw [e]; rfl)
        rw [ltOk_cons_ne hcc]
        exact ih.1
    · intro buf hb
      rw [remTagsAux]
      by_cases hg : (c == '>') = true
      · rw [if_pos hg]
        by_cases hbuf : buf.isEmpty = true
        · rw [if_pos hbuf]
          rw [ltOk_lt_gt, ltOk_cons_ne (by decide)]
          exact ih.1
        · rw [if_neg hbuf]
          exact ih.1
      · rw [if_neg hg]
        apply ih.2
        intro e
        rcases List.mem_cons.mp e with e | e
        · exact hg (by rw [← e]; rfl)
        · exact hb e

theorem remTags_ltOk (x : List Char) : ltOk (remTags x) = true :=
  (remTagsAux_ltOk x).1

theorem remTags_id_of_ltOk : ∀ {l : List Char}, ltOk l = true → remTags l = l := by
  intro l
  unfold remTags
  induction l with
  | nil => intro _; rfl
  | cons c rest ih =>
    intro h
    rw [remTagsAux]
    by_cases hc : (c == '<') = true
    · rw [if_pos hc]
      have hceq : c = '<' := by simpa using hc
      subst hceq
      cases rest with
      | nil => rfl
      | cons d r2 =>
        by_cases hd : d = '>'
        · subst hd
          have hih := ih (ltOk_tail h)
          rw [remTagsAux] at hih
          simp only [show (('>' : Char) == '<') = false from rfl,
            Bool.false_eq_true, if_false, List.cons.injEq, true_and] at hih
          rw [remTagsAux]
          simp only [show (('>' : Char) == '>') = true from rfl, if_true,
            List.isEmpty_nil, hih]
        · rw [ltOk_lt_cons, if_neg hd, Bool.not_eq_eq_eq_not, Bool.not_true] at h
          have hng : '>' ∉ (d :: r2) := by
            intro e
            rw [(by simpa using e : (d :: r2).contains '>' = true)] at h
            cases h
          rw [remTagsAux_no_gt [] hng]
          rfl
    · rw [if_neg hc, ih (ltOk_tail h)]

theorem splitFirstGt_none {l : List Char} (h : '>' ∉ l) : splitFirstGt l = none := by
  induction l with
  | nil => rfl
  | cons c rest ih =>
    simp only [List.mem_cons, not_or] at h
    have hc : (c == '>') = false := beq_eq_false_iff_ne.mpr (fun e => h.1 e.symm)
    rw [splitFirstGt]
    simp only [hc, Bool.false_eq_true, if_false]
    exact ih h.2

theorem tryElemAt_none_of_ltOk {name close : List Char}
    (hname : ∀ r, ciPrefixB name ('>' :: r) = false) :
    ∀ {rest : List Char}, ltOk ('<' :: rest) = true →
      tryElemAt name close rest = none := by
  intro rest h
  unfold tryElemAt
  by_cases hci : ciPrefixB name rest = true
  case neg => rw [if_neg hci]
  case pos =>
    rw [if_pos hci]
    cases rest with
    | nil => rw [List.drop_nil]
    | cons d r2 =>
      by_cases hd : d = '>'
      · subst hd
        rw [hname r2] at hci
        cases hci
      · rw [ltOk_lt_cons, if_neg hd, Bool.not_eq_eq_eq_not, Bool.not_true] at h
        have hng : '>' ∉ (d :: r2) := by
          intro e
          rw [(by simpa using e : (d :: r2).contains '>' = true)] at h
          cases h
        have hngd : '>' ∉ (d :: r2).drop name.length :=
          fun e => hng (List.mem_of_mem_drop e)
        cases hdr : (d :: r2).drop name.length with
        | nil => rfl
        | cons e es =>
          rw [hdr] at hngd
          show (if isWordChar e = true then none
            else match splitFirstGt (e :: es) with
              | none => none
              | some afterGt => findCloseCi close afterGt) = none
          rw [splitFirstGt_none hngd]
          cases hw : isWordChar e
          · simp only [Bool.false_eq_true, if_false]
          · simp only [if_true]

theorem remElemAux_id_of_ltOk {name close : List Char}
    (hname : ∀ r, ciPrefixB name ('>' :: r) = false) :
    ∀ (f : Nat) {l : List Char}, ltOk l = true → remElemAux name close f l = l := by
  intro f
  induction f with
  | zero => intro l _; rfl
  | succ f ih =>
    intro l h
    cases l with
    | nil => rfl
    | cons c rest =>
      rw [remElemAux]
      by_cases hc : (c == '<') = true
      · rw [if_pos hc]
        have hceq : c = '<' := by simpa using hc
        subst hceq
        rw [tryElemAt_none_of_ltOk hname h]
        exact congrArg (List.cons '<') (ih (ltOk_tail h))
      · rw [if_neg hc, ih (ltOk_tail h)]

theorem remTable_id_of_ltOk {l : List Char} (h : ltOk l = true) :
    remTable l = l :=
  @remElemAux_id_of_ltOk "table".data "</table>".data (fun r => rfl) l.length l h

theorem remS_id_of_ltOk {l : List Char} (h : ltOk l = true) :
    remS l = l :=
  @remElemAux_id_of_ltOk "s".data "</s>".data (fun r => rfl) l.length l h

/-! ### `ltOk` is established by tag removal and preserved by the later
pipeline stages -/

theorem ltOk_append_no_lt {w : List Char} (h : '<' ∉ w) :
    ∀ (z : List Char), ltOk (w ++ z) = ltOk z := by
  induction w with
  | nil => intro z; rfl
  | cons c rest ih =>
    intro z
    simp only [List.mem_cons, not_or] at h
    rw [List.cons_append, ltOk_cons_ne (fun e => h.1 e.symm)]
    exact ih h.2 z

theorem ltOk_drop {l : List Char} (n : Nat) (h : ltOk l = true) :
    ltOk (l.drop n) = true :=
  @ltOk_suffix (l.take n) (l.drop n) (by rw [List.take_append_drop]; exact h)

theorem mem_replaceL (p : Char) (pat rep : List Char) {c : Char} :
    ∀ (n : Nat) (l : List Char), l.length ≤ n →
      c ∈ replaceL p pat rep l → c ∈ l ∨ c ∈ rep := by
  intro n
  induction n with
  | zero =>
    intro l hl hm
    rw [List.length_eq_zero.mp (Nat.le_zero.mp hl)] at hm
    cases hm
  | succ n ih =>
    intro l hl hm
    cases l with
    | nil => cases hm
    | cons d rest =>
      simp only [List.length_cons, Nat.succ_le_succ_iff] at hl
      cases hmb : (d == p && prefixB pat rest) with
      | true =>
        simp only [Bool.and_eq_true, beq_iff_eq] at hmb
        obtain ⟨hdp, hpre⟩ := hmb
        subst hdp
        rw [replaceL_match rep hpre] at hm
        rcases List.mem_append.mp hm with h | h
        · exact Or.inr h
        · have hlen : (rest.drop pat.length).length ≤ n := by
            rw [List.length_drop]
            exact le_trans (Nat.sub_le _ _) hl
          rcases ih (rest.drop pat.length) hlen h with h2 | h2
          · exact Or.inl (List.mem_cons_of_mem _ (List.mem_of_mem_drop h2))
          · exact Or.inr h2
      | false =>
        rw [replaceL_nomatch rep hmb] at hm
        rcases List.mem_cons.mp hm with h | h
        · exact Or.inl (h ▸ List.mem_cons_self _ _)
        · rcases ih rest hl h with h2 | h2
          · exact Or.inl (List.mem_cons_of_mem _ h2)
          · exact Or.inr h2

theorem ltOk_replaceL (p : Char) (pat rep : List Char)
    (hp1 : p ≠ '<') (hp2 : p ≠ '>') (hr1 : '<' ∉ rep) (hr2 : '>' ∉ rep) :
    ∀ (n : Nat) (l : List Char), l.length ≤ n → ltOk l = true →
      ltOk (replaceL p pat rep l) = true := by
  intro n
  induction n with
  | zero =>
    intro l hl _
    rw [List.length_eq_zero.mp (Nat.le_zero.mp hl)]
    rfl
  | succ n ih =>
    intro l hl h
    cases l with
    | nil => rfl
    | cons c rest =>
      simp only [List.length_cons, Nat.succ_le_succ_iff] at hl
      cases hmb : (c == p && prefixB pat rest) with
      | true =>
        simp only [Bool.and_eq_true, beq_iff_eq] at hmb
        obtain ⟨hcp, hpre⟩ := hmb
        subst hcp
        rw [replaceL_match rep hpre, ltOk_append_no_lt hr1]
        refine ih (rest.drop pat.length) ?_ (ltOk_drop _ (ltOk_tail h))
        rw [List.length_drop]
        exact le_trans (Nat.sub_le _ _) hl
      | false =>
        rw [replaceL_nomatch rep hmb]
        by_cases hc : c = '<'
        · subst hc
          cases rest with
          | nil => rfl
          | cons d r2 =>
            by_cases hd : d = '>'
            · subst hd
              have hmb2 : (('>' : Char) == p && prefixB pat r2) = false := by
                rw [beq_eq_false_iff_ne.mpr (fun e => hp2 e.symm)]
                rfl
              rw [replaceL_nomatch rep hmb2, ltOk_lt_gt,
                ← replaceL_nomatch rep hmb2]
              exact ih ('>' :: r2) hl (ltOk_tail h)
            · rw [ltOk_lt_cons, if_neg hd, Bool.not_eq_eq_eq_not, Bool.not_true] at h
              have hng : '>' ∉ (d :: r2) := by
                intro e
                rw [(by simpa using e : (d :: r2).contains '>' = true)] at h
                cases h
              refine ltOk_lt_no_gt ?_
              intro e
              rcases mem_replaceL p pat rep n (d :: r2) hl e with h2 | h2
              · exact hng h2
              · exact hr2 h2
        · rw [ltOk_cons_ne hc]
          exact ih rest hl (ltOk_tail h)

theorem acDigits_suffix : ∀ {l t : List Char}, acDigits l = some t → ∃ q, l = q ++ t := by
  intro l t h
  match l with
  | [] => exact Option.noConfusion h
  | [d1] => exact Option.noConfusion h
  | [d1, p2] => exact Option.noConfusion h
  | d1 :: p2 :: d2 :: rest =>
    have h2 : (if d19 d1 && p2 == '.' && d19 d2 then some rest else none) = some t := h
    by_cases hg : (d19 d1 && p2 == '.' && d19 d2) = true
    · rw [if_pos hg] at h2
      exact ⟨[d1, p2, d2], by rw [Option.some_inj.mp h2]; simp⟩
    · rw [if_neg hg] at h2
      exact Option.noConfusion h2

theorem acMatch_suffix : ∀ {l t : List Char}, acMatch l = some t → ∃ q, l = q ++ t := by
  intro l t h
  match l with
  | [] => exact Option.noConfusion h
  | [a] => exact Option.noConfusion h
  | [a, b] =>
    have h2 : (if (a == 'A' || a == 'a') && (b == 'C' || b == 'c') then
        (none : Option (List Char)) else none) = some t := h
    by_cases hg : ((a == 'A' || a == 'a') && (b == 'C' || b == 'c')) = true
    · rw [if_pos hg] at h2
      exact Option.noConfusion h2
    · rw [if_neg hg] at h2
      exact Option.noConfusion h2
  | a :: b :: w :: r2 =>
    have h2 : (if (a == 'A' || a == 'a') && (b == 'C' || b == 'c') then
        (if isPySpace w then acDigits r2 else acDigits (w :: r2))
      else none) = some t := h
    by_cases hg : ((a == 'A' || a == 'a') && (b == 'C' || b == 'c')) = true
    · rw [if_pos hg] at h2
      by_cases hw : isPySpace w = true
      · rw [if_pos hw] at h2
        obtain ⟨q, hq⟩ := acDigits_suffix h2
        exact ⟨a :: b :: w :: q, by rw [hq]; simp⟩
      · rw [if_neg hw] at h2
        obtain ⟨q, hq⟩ := acDigits_suffix h2
        exact ⟨a :: b :: q, by rw [hq]; simp⟩
    · rw [if_neg hg] at h2
      exact Option.noConfusion h2

theorem ltOk_dropWhile {l : List Char} (h : ltOk l = true) :
    ltOk (l.dropWhile isPySpace) = true :=
  @ltOk_suffix (l.takeWhile isPySpace) (l.dropWhile isPySpace)
    (by rw [List.takeWhile_append_dropWhile]; exact h)

theorem ltOk_stripAC {l : List Char} (h : ltOk l = true) :
    ltOk (stripAC l) = true := by
  unfold stripAC
  cases hm : acMatch l with
  | none => exact h
  | some t =>
    obtain ⟨q, hq⟩ := acMatch_suffix hm
    exact ltOk_dropWhile (@ltOk_suffix q t (by rw [← hq]; exact h))

theorem mem_collapseAux {c : Char} :
    ∀ (b : Bool) (l : List Char), c ∈ collapseAux b l → c ∈ l ∨ c = ' ' := by
  intro b l
  induction l generalizing b with
  | nil => intro h; cases h
  | cons d rest ih =>
    intro h
    rw [collapseAux] at h
    by_cases hd : isPySpace d = true
    · rw [if_pos hd] at h
      cases b with
      | true =>
        rcases ih true h with h2 | h2
        · exact Or.inl (List.mem_cons_of_mem _ h2)
        · exact Or.inr h2
      | false =>
        rw [if_neg Bool.false_ne_true] at h
        rcases List.mem_cons.mp h with h2 | h2
        · exact Or.inr h2
        · rcases ih true h2 with h3 | h3
          · exact Or.inl (List.mem_cons_of_mem _ h3)
          · exact Or.inr h3
    · rw [if_neg hd] at h
      rcases List.mem_cons.mp h with h2 | h2
      · exact Or.inl (h2 ▸ List.mem_cons_self _ _)
      · rcases ih false h2 with h3 | h3
        · exact Or.inl (List.mem_cons_of_mem _ h3)
        · exact Or.inr h3

theorem ltOk_collapseAux :
    ∀ {l : List Char} (b : Bool), ltOk l = true → ltOk (collapseAux b l) = true := by
  intro l
  induction l with
  | nil =>
    intro b _
    cases b <;> rfl
  | cons c rest ih =>
    intro b h
    rw [collapseAux]
    by_cases hc : isPySpace c = true
    · rw [if_pos hc]
      have hr := ih true (ltOk_tail h)
      cases b with
      | true => exact hr
      | false =>
        rw [if_neg Bool.false_ne_true, ltOk_cons_ne (by decide)]
        exact hr
    · rw [if_neg hc]
      by_cases hlt : c = '<'
      · subst hlt
        cases rest with
        | nil => rfl
        | cons d r2 =>
          by_cases hd : d = '>'
          · subst hd
            have hstep : collapseAux false ('>' :: r2) = '>' :: collapseAux false r2 := by
              rw [collapseAux, if_neg (by decide)]
            rw [hstep, ltOk_lt_gt, ← hstep]
            exact ih false (ltOk_tail h)
          · rw [ltOk_lt_cons, if_neg hd, Bool.not_eq_eq_eq_not, Bool.not_true] at h
            have hng : '>' ∉ (d :: r2) := by
              intro e
              rw [(by simpa using e : (d :: r2).contains '>' = true)] at h
              cases h
            refine ltOk_lt_no_gt ?_
            intro e
            rcases mem_collapseAux false (d :: r2) e with h2 | h2
            · exact hng h2
            · exact absurd h2 (by decide)
      · rw [ltOk_cons_ne hlt]
        exact ih false (ltOk_tail h)

theorem dropEndWs_decomp :
    ∀ (l : List Char), ∃ w, l = dropEndWs l ++ w ∧ ∀ c ∈ w, isPySpace c = true := by
  intro l
  induction l with
  | nil => exact ⟨[], rfl, by intro c hc; cases hc⟩
  | cons c rest ih =>
    obtain ⟨w, hw, hall⟩ := ih
    rw [dropEndWs]
    by_cases he : (dropEndWs rest).isEmpty = true
    · rw [if_pos he]
      have hre : dropEndWs rest = [] := by
        cases hh : dropEndWs rest with
        | nil => rfl
        | cons x xs => rw [hh] at he; cases he
      rw [hre] at hw
      simp only [List.nil_append] at hw
      by_cases hc : isPySpace c = true
      · rw [if_pos hc]
        refine ⟨c :: rest, by simp, ?_⟩
        intro x hx
        rcases List.mem_cons.mp hx with e | e
        · rw [e]; exact hc
        · exact hall x (hw ▸ e)
      · rw [if_neg hc]
        refine ⟨rest, rfl, ?_⟩
        intro x hx
        exact hall x (hw ▸ hx)
    · rw [if_neg he]
      exact ⟨w, by rw [List.cons_append, ← hw], hall⟩

theorem ltOk_dropEndWs {l : List Char} (h : ltOk l = true) :
    ltOk (dropEndWs l) = true := by
  obtain ⟨w, hw, hall⟩ := dropEndWs_decomp l
  have hng : '>' ∉ w := by
    intro e
    exact absurd (hall _ e) (by decide)
  exact ltOk_drop_ws_end hng (by rw [← hw]; exact h)

theorem ltOk_pyStrip {l : List Char} (h : ltOk l = true) :
    ltOk (pyStrip l) = true :=
  ltOk_dropEndWs (ltOk_dropWhile h)

theorem ltOk_stripHtmlCore (l : List Char) : ltOk (stripHtmlCore l) = true := by
  unfold stripHtmlCore collapseWs
  refine ltOk_pyStrip (ltOk_collapseAux false ?_)
  refine ltOk_replaceL '&' "nbsp;".data " ".data
    (by decide) (by decide) (by decide) (by decide) _ _ le_rfl ?_
  exact ltOk_stripAC (remTags_ltOk _)

/-! ### Collapsed-whitespace shape of the normalizer output -/

theorem wsSingleLoose_cons (c : Char) (l : List Char) :
    wsSingleLoose (c :: l) =
      (if isPySpace c then
        ((c == ' ') &&
         (match l with
          | [] => true
          | d :: _ => !isPySpace d) &&
         wsSingleLoose l)
      else wsSingleLoose l) := rfl

theorem wsAllSingle_cons (c : Char) (l : List Char) :
    wsAllSingle (c :: l) =
      (if isPySpace c then
        ((c == ' ') &&
         (match l with
          | [] => false
          | d :: _ => !isPySpace d) &&
         wsAllSingle l)
      else wsAllSingle l) := rfl

theorem headOk_collapseAux_true :
    ∀ (l : List Char), headOk (collapseAux true l) = true := by
  intro l
  induction l with
  | nil => rfl
  | cons c rest ih =>
    rw [collapseAux]
    by_cases hc : isPySpace c = true
    · rw [if_pos hc, if_pos rfl]
      exact ih
    · rw [if_neg hc, headOk, Bool.eq_false_iff.mpr hc]
      rfl

theorem wsSingleLoose_collapseAux :
    ∀ (l : List Char) (b : Bool), wsSingleLoose (collapseAux b l) = true := by
  intro l
  induction l with
  | nil =>
    intro b
    cases b <;> rfl
  | cons c rest ih =>
    intro b
    rw [collapseAux]
    by_cases hc : isPySpace c = true
    · rw [if_pos hc]
      cases b with
      | true => exact ih true
      | false =>
        rw [if_neg Bool.false_ne_true, wsSingleLoose_cons, if_pos (by decide)]
        have h1 := headOk_collapseAux_true rest
        rw [ih true]
        cases hcc : collapseAux true rest with
        | nil => rfl
        | cons d r2 =>
          rw [hcc, headOk] at h1
          simp [h1]
    · rw [if_neg hc, wsSingleLoose_cons, if_neg hc]
      exact ih false

theorem wsSingleLoose_tail {c : Char} {l : List Char}
    (h : wsSingleLoose (c :: l) = true) : wsSingleLoose l = true := by
  rw [wsSingleLoose_cons] at h
  by_cases hc : isPySpace c = true
  · rw [if_pos hc] at h
    simp only [Bool.and_eq_true] at h
    exact h.2
  · rw [if_neg hc] at h
    exact h

theorem wsSingleLoose_append_right :
    ∀ (l₁ : List Char) {l₂ : List Char}, wsSingleLoose (l₁ ++ l₂) = true →
      wsSingleLoose l₂ = true := by
  intro l₁
  induction l₁ with
  | nil => intro l₂ h; exact h
  | cons c rest ih =>
    intro l₂ h
    rw [List.cons_append] at h
    exact ih (wsSingleLoose_tail h)

theorem wsSingleLoose_append_left :
    ∀ {l₁ l₂ : List Char}, wsSingleLoose (l₁ ++ l₂) = true →
      wsSingleLoose l₁ = true := by
  intro l₁
  induction l₁ with
  | nil => intro l₂ _; rfl
  | cons c rest ih =>
    intro l₂ h
    rw [List.cons_append, wsSingleLoose_cons] at h
    rw [wsSingleLoose_cons]
    by_cases hc : isPySpace c = true
    · rw [if_pos hc] at h ⊢
      cases rest with
      | nil =>
        simp only [List.nil_append, Bool.and_eq_true] at h
        rw [h.1.1]
        rfl
      | cons d r2 =>
        simp only [List.cons_append, Bool.and_eq_true] at h
        obtain ⟨⟨h1, h2⟩, h3⟩ := h
        have h2d : (!isPySpace d) = true := h2
        have hres : wsSingleLoose (d :: r2) = true :=
          ih (show wsSingleLoose ((d :: r2) ++ l₂) = true by
            rw [List.cons_append]; exact h3)
        show ((c == ' ') && (!isPySpace d) && wsSingleLoose (d :: r2)) = true
        rw [h1, h2d, hres]
        rfl
    · rw [if_neg hc] at h ⊢
      exact ih h

theorem wsAllSingle_of_loose_lastOk :
    ∀ {l : List Char}, wsSingleLoose l = true → lastOk l = true →
      wsAllSingle l = true := by
  intro l
  induction l with
  | nil => intro _ _; rfl
  | cons c rest ih =>
    intro h1 h2
    rw [wsSingleLoose_cons] at h1
    rw [wsAllSingle_cons]
    by_cases hc : isPySpace c = true
    · rw [if_pos hc] at h1 ⊢
      cases rest with
      | nil =>
        rw [lastOk, hc] at h2
        exact absurd h2 (by decide)
      | cons d r2 =>
        simp only [Bool.and_eq_true] at h1
        obtain ⟨⟨ha, hb⟩, hrest⟩ := h1
        have hb2 : (!isPySpace d) = true := hb
        have hl2 : lastOk (d :: r2) = true := by
          rw [lastOk_cons c (by simp)] at h2
          exact h2
        show ((c == ' ') && (!isPySpace d) && wsAllSingle (d :: r2)) = true
        rw [ha, hb2, ih hrest hl2]
        rfl
    · rw [if_neg hc] at h1 ⊢
      cases rest with
      | nil => rfl
      | cons d r2 =>
        refine ih h1 ?_
        rw [lastOk_cons c (by simp)] at h2
        exact h2

theorem wsAllSingle_pyStrip_of_loose {l : List Char} (h : wsSingleLoose l = true) :
    wsAllSingle (pyStrip l) = true := by
  have h1 : wsSingleLoose (l.dropWhile isPySpace) = true :=
    wsSingleLoose_append_right (l.takeWhile isPySpace)
      (by rw [List.takeWhile_append_dropWhile]; exact h)
  obtain ⟨w, hw, _⟩ := dropEndWs_decomp (l.dropWhile isPySpace)
  have h2 : wsSingleLoose (dropEndWs (l.dropWhile isPySpace)) = true :=
    wsSingleLoose_append_left (by rw [← hw]; exact h1)
  exact wsAllSingle_of_loose_lastOk h2 (lastOk_dropEndWs _)

theorem headOk_stripHtmlCore (l : List Char) : headOk (stripHtmlCore l) = true := by
  unfold stripHtmlCore
  exact pyStrip_headOk _

theorem lastOk_stripHtmlCore (l : List Char) : lastOk (stripHtmlCore l) = true := by
  unfold stripHtmlCore
  exact pyStrip_lastOk _

theorem tidy_stripHtmlCore (l : List Char) : wsAllSingle (stripHtmlCore l) = true := by
  unfold stripHtmlCore collapseWs
  exact wsAllSingle_pyStrip_of_loose (wsSingleLoose_collapseAux _ false)

theorem collapseAux_id_of_allSingle :
    ∀ {l : List Char}, wsAllSingle l = true →
      collapseAux false l = l ∧ (headOk l = true → collapseAux true l = l) := by
  intro l
  induction l with
  | nil => exact fun _ => ⟨rfl, fun _ => rfl⟩
  | cons c rest ih =>
    intro h
    rw [wsAllSingle_cons] at h
    by_cases hc : isPySpace c = true
    · rw [if_pos hc] at h
      cases rest with
      | nil => simp at h
      | cons d r2 =>
        simp only [Bool.and_eq_true] at h
        obtain ⟨⟨ha, hb⟩, hrest⟩ := h
        have ha2 : c = ' ' := by simpa using ha
        have hb2 : (!isPySpace d) = true := hb
        have hd : isPySpace d = false := by simpa using hb2
        obtain ⟨ih1, ih2⟩ := ih hrest
        have hh : headOk (d :: r2) = true := by rw [headOk, hd]; rfl
        constructor
        · rw [collapseAux, if_pos hc, if_neg Bool.false_ne_true, ih2 hh, ha2]
        · intro hhead
          rw [headOk, hc] at hhead
          exact absurd hhead (by decide)
    · rw [if_neg hc] at h
      obtain ⟨ih1, ih2⟩ := ih h
      refine ⟨?_, fun _ => ?_⟩
      · rw [collapseAux, if_neg hc, ih1]
      · rw [collapseAux, if_neg hc, ih1]

/-! ### The normalizer output contains no `&nbsp;` occurrence -/

theorem prefixB_replaceL_space (p : Char) (pat : List Char) :
    ∀ (n : Nat) (w x : List Char), ' ' ∉ w → x.length ≤ n →
      prefixB w (replaceL p pat [' '] x) = true → prefixB w x = true := by
  intro n
  induction n with
  | zero =>
    intro w x hw hx h
    rw [List.length_eq_zero.mp (Nat.le_zero.mp hx)] at h ⊢
    exact h
  | succ n ih =>
    intro w x hw hx h
    cases w with
    | nil => rfl
    | cons a w2 =>
      cases x with
      | nil => exact h
      | cons c rest =>
        simp only [List.length_cons, Nat.succ_le_succ_iff] at hx
        simp only [List.mem_cons, not_or] at hw
        cases hmb : (c == p && prefixB pat rest) with
        | true =>
          simp only [Bool.and_eq_true, beq_iff_eq] at hmb
          obtain ⟨hcp, hpre⟩ := hmb
          subst hcp
          rw [replaceL_match [' '] hpre, List.singleton_append, prefixB] at h
          simp only [Bool.and_eq_true, beq_iff_eq] at h
          exact absurd h.1.symm hw.1
        | false =>
          rw [replaceL_nomatch [' '] hmb, prefixB] at h
          rw [prefixB]
          simp only [Bool.and_eq_true] at h ⊢
          exact ⟨h.1, ih w2 rest hw.2 hx h.2⟩

theorem nbsp_free_replaceL :
    ∀ (n : Nat) (x : List Char), x.length ≤ n →
      containsSeqB "&nbsp;".data (replaceL '&' "nbsp;".data " ".data x) = false := by
  intro n
  induction n with
  | zero =>
    intro x hx
    rw [List.length_eq_zero.mp (Nat.le_zero.mp hx)]
    rfl
  | succ n ih =>
    intro x hx
    cases x with
    | nil => rfl
    | cons c rest =>
      simp only [List.length_cons, Nat.succ_le_succ_iff] at hx
      cases hmb : (c == '&' && prefixB "nbsp;".data rest) with
      | true =>
        simp only [Bool.and_eq_true, beq_iff_eq] at hmb
        obtain ⟨hcp, hpre⟩ := hmb
        subst hcp
        rw [replaceL_match " ".data hpre,
          show (" ".data : List Char) = [' '] from rfl, List.singleton_append]
        have hlen : (rest.drop "nbsp;".data.length).length ≤ n := by
          rw [List.length_drop]
          exact le_trans (Nat.sub_le _ _) hx
        rw [containsSeqB, ih _ hlen, Bool.or_false]
        rfl
      | false =>
        rw [replaceL_nomatch " ".data hmb, containsSeqB, ih rest hx, Bool.or_false]
        by_cases hc : c = '&'
        · subst hc
          have hnp : prefixB "nbsp;".data rest = false := by
            simpa using hmb
          rw [show ("&nbsp;".data : List Char) = '&' :: "nbsp;".data from rfl,
            prefixB, show (('&' : Char) == '&') = true from rfl, Bool.true_and]
          cases hres : prefixB "nbsp;".data (replaceL '&' "nbsp;".data " ".data rest) with
          | false => rfl
          | true =>
            exact absurd
              (prefixB_replaceL_space '&' "nbsp;".data n "nbsp;".data rest
                (by decide) hx hres)
              (by rw [hnp]; exact Bool.false_ne_true)
        · rw [show ("&nbsp;".data : List Char) = '&' :: "nbsp;".data from rfl,
            prefixB, beq_eq_false_iff_ne.mpr (fun e => hc e.symm)]
          rfl

theorem prefixB_collapseAux_rev :
    ∀ (x w : List Char), (∀ a ∈ w, isPySpace a = false) →
      prefixB w (collapseAux false x) = true → prefixB w x = true := by
  intro x
  induction x with
  | nil =>
    intro w hw h
    exact h
  | cons c rest ih =>
    intro w hw h
    cases w with
    | nil => rfl
    | cons a w2 =>
      rw [collapseAux] at h
      by_cases hc : isPySpace c = true
      · rw [if_pos hc, if_neg Bool.false_ne_true, prefixB] at h
        simp only [Bool.and_eq_true, beq_iff_eq] at h
        have hsp := hw a (List.mem_cons_self _ _)
        rw [h.1] at hsp
        exact absurd hsp (by decide)
      · rw [if_neg hc, prefixB] at h
        rw [prefixB]
        simp only [Bool.and_eq_true] at h ⊢
        exact ⟨h.1, ih w2 (fun a ha => hw a (List.mem_cons_of_mem _ ha)) h.2⟩

theorem containsSeqB_tail_false {pat : List Char} {c : Char} {l : List Char}
    (h : containsSeqB pat (c :: l) = false) : containsSeqB pat l = false := by
  rw [containsSeqB] at h
  exact (Bool.or_eq_false_iff.mp h).2

theorem nbsp_free_collapseAux {pat : List Char}
    (hpat : ∀ a ∈ pat, isPySpace a = false) (hne : pat ≠ []) :
    ∀ (x : List Char) (b : Bool), containsSeqB pat x = false →
      containsSeqB pat (collapseAux b x) = false := by
  intro x
  induction x with
  | nil =>
    intro b h
    cases b <;> exact h
  | cons c rest ih =>
    intro b h
    rw [collapseAux]
    by_cases hc : isPySpace c = true
    · rw [if_pos hc]
      have hrest := containsSeqB_tail_false h
      cases b with
      | true => exact ih true hrest
      | false =>
        rw [if_neg Bool.false_ne_true, containsSeqB, ih true hrest, Bool.or_false]
        cases pat with
        | nil => exact absurd rfl hne
        | cons a pat2 =>
          have hsp := hpat a (List.mem_cons_self _ _)
          rw [prefixB, beq_eq_false_iff_ne.mpr
            (fun e => by rw [e] at hsp; exact absurd hsp (by decide))]
          rfl
    · rw [if_neg hc]
      rw [containsSeqB] at h
      simp only [Bool.or_eq_false_iff] at h
      rw [containsSeqB, ih false h.2, Bool.or_false]
      cases hres : prefixB pat (c :: collapseAux false rest) with
      | false => rfl
      | true =>
        exfalso
        cases pat with
        | nil => exact absurd rfl hne
        | cons a pat2 =>
          rw [prefixB] at hres
          simp only [Bool.and_eq_true] at hres
          have h2 := prefixB_collapseAux_rev rest pat2
            (fun a ha => hpat a (List.mem_cons_of_mem _ ha)) hres.2
          have hcontra : prefixB (a :: pat2) (c :: rest) = true := by
            rw [prefixB, hres.1, h2]
            rfl
          exact absurd hcontra (by rw [h.1]; exact Bool.false_ne_true)

theorem containsSeqB_pyStrip_false {pat l : List Char}
    (h : containsSeqB pat l = false) : containsSeqB pat (pyStrip l) = false := by
  have h1 : containsSeqB pat (l.dropWhile isPySpace) = false := by
    cases hres : containsSeqB pat (l.dropWhile isPySpace) with
    | false => rfl
    | true =>
      have h2 := containsSeqB_append_right (l.takeWhile isPySpace) hres
      rw [List.takeWhile_append_dropWhile, h] at h2
      exact absurd h2 (by decide)
  obtain ⟨w, hw, _⟩ := dropEndWs_decomp (l.dropWhile isPySpace)
  cases hres : containsSeqB pat (dropEndWs (l.dropWhile isPySpace)) with
  | false => exact hres
  | true =>
    have h2 := containsSeqB_append_left w hres
    rw [← hw, h1] at h2
    exact absurd h2 (by decide)

theorem nbsp_free_stripHtmlCore (l : List Char) :
    containsSeqB "&nbsp;".data (stripHtmlCore l) = false := by
  unfold stripHtmlCore collapseWs
  apply containsSeqB_pyStrip_false
  apply nbsp_free_collapseAux (by decide) (by decide)
  exact nbsp_free_replaceL _ _ le_rfl

/-! ### Idempotence of the normalizer on its own output, away from the two
failure modes (a leading AC code, and a `"<p"` occurrence) -/

theorem stripHtmlCore_id_of_normal {g : List Char}
    (hhead : headOk g = true) (hlast : lastOk g = true)
    (hws : wsAllSingle g = true) (hlt : ltOk g = true)
    (hnb : containsSeqB "&nbsp;".data g = false)
    (hac : acMatch g = none)
    (hp : containsSeqB ('<' :: "p".data) g = false) :
    stripHtmlCore g = g := by
  have hth : containsSeqB ('<' :: "/th>".data) g = false :=
    @ltOk_no_tag_occ "/th".data (by decide) (by decide) g hlt
  have htd : containsSeqB ('<' :: "/td>".data) g = false :=
    @ltOk_no_tag_occ "/td".data (by decide) (by decide) g hlt
  have htr : containsSeqB ('<' :: "/tr>".data) g = false :=
    @ltOk_no_tag_occ "/tr".data (by decide) (by decide) g hlt
  have htb : containsSeqB ('<' :: "/table>".data) g = false :=
    @ltOk_no_tag_occ "/table".data (by decide) (by decide) g hlt
  have hpc : containsSeqB ('<' :: "/p>".data) g = false :=
    @ltOk_no_tag_occ "/p".data (by decide) (by decide) g hlt
  unfold stripHtmlCore collapseWs
  rw [pyStrip_eq_self hhead hlast,
    replaceL_id_of_no_occ '<' "/th>".data "</th> ".data hth,
    replaceL_id_of_no_occ '<' "/td>".data "</td> ".data htd,
    replaceL_id_of_no_occ '<' "/tr>".data "</tr> ".data htr,
    replaceL_id_of_no_occ '<' "/table>".data "</table> ".data htb,
    replaceL_id_of_no_occ '<' "p".data " <p".data hp,
    replaceL_id_of_no_occ '<' "/p>".data "</p> ".data hpc,
    remTable_id_of_ltOk hlt, remS_id_of_ltOk hlt, remTags_id_of_ltOk hlt,
    stripAC_id hac,
    replaceL_id_of_no_occ '&' "nbsp;".data " ".data hnb,
    (collapseAux_id_of_allSingle hws).1,
    pyStrip_eq_self hhead hlast]

/-! ## C6: idempotence of the normalizer on its own output -/

/-- C6 counterexample: the normalizer is not idempotent on its own output.
`"AC1.2 AC3.4 hello"` normalizes to `"AC3.4 hello"`, and re-normalizing
strips the now-leading second AC code, giving a different text; and
`"x<<s>y</s>p"` normalizes to `"x<p"`, which the paragraph-spacing replace
rewrites to `"x <p"` on the second pass, so feeding the normalized text
back through the word counter changes the count from 1 to 2. -/
theorem c6_idempotence_counterexample :
    stripHtmlWithDOMParser (stripHtmlWithDOMParser "AC1.2 AC3.4 hello") ≠
      stripHtmlWithDOMParser "AC1.2 AC3.4 hello" ∧
    stripHtmlWithDOMParser (stripHtmlWithDOMParser "x<<s>y</s>p") ≠
      stripHtmlWithDOMParser "x<<s>y</s>p" ∧
    calculateWordCount "x<<s>y</s>p" = 1 ∧
    calculateWordCount (stripHtmlWithDOMParser "x<<s>y</s>p") = 2 := by
  refine ⟨by decide, by decide, by decide, by decide⟩

/-- C6 (amended): the normalizer is idempotent on every output of its own
that does not itself begin with an assessment-criterion code and does not
contain the two-character substring `"<p"`: re-normalizing such output
returns the same text, and hence the same word count.  (Both exclusions are
real failure modes: a surviving leading AC code is stripped again on the
second pass, and a surviving `"<p"` is rewritten to `" <p"` by the
paragraph-spacing replace.) -/
theorem c6_amended_idempotent_on_normal (s : String)
    (hac : acMatch (stripHtmlWithDOMParser s).data = none)
    (hp : containsSeqB ('<' :: "p".data) (stripHtmlWithDOMParser s).data = false) :
    stripHtmlWithDOMParser (stripHtmlWithDOMParser s) = stripHtmlWithDOMParser s ∧
    calculateWordCount (stripHtmlWithDOMParser (stripHtmlWithDOMParser s)) =
      calculateWordCount (stripHtmlWithDOMParser s) := by
  have hdata : (stripHtmlWithDOMParser s).data = stripHtmlCore s.data := rfl
  have hac2 : acMatch (stripHtmlCore s.data) = none := by
    rw [← hdata]; exact hac
  have hp2 : containsSeqB ('<' :: "p".data) (stripHtmlCore s.data) = false := by
    rw [← hdata]; exact hp
  have hg : stripHtmlCore (stripHtmlCore s.data) = stripHtmlCore s.data :=
    @stripHtmlCore_id_of_normal (stripHtmlCore s.data)
      (headOk_stripHtmlCore s.data) (lastOk_stripHtmlCore s.data)
      (tidy_stripHtmlCore s.data) (ltOk_stripHtmlCore s.data)
      (nbsp_free_stripHtmlCore s.data) hac2 hp2
  have htext : stripHtmlWithDOMParser (stripHtmlWithDOMParser s) =
      stripHtmlWithDOMParser s := by
    show (⟨stripHtmlCore (stripHtmlWithDOMParser s).data⟩ : String) =
      stripHtmlWithDOMParser s
    rw [hdata, hg]
    rfl
  exact ⟨htext, congrArg calculateWordCount htext⟩

/-- C6 witness: the amended idempotence applied at the concrete input
`"Hello <b>world</b>"`, whose normal form `"Hello world"` has no leading AC
code and no `"<p"` occurrence. -/
theorem c6_amended_idempotent_on_normal_witness :
    acMatch (stripHtmlWithDOMParser "Hello <b>world</b>").data = none ∧
    containsSeqB ('<' :: "p".data)
      (stripHtmlWithDOMParser "Hello <b>world</b>").data = false ∧
    (stripHtmlWithDOMParser (stripHtmlWithDOMParser "Hello <b>world</b>") =
      stripHtmlWithDOMParser "Hello <b>world</b>" ∧
     calculateWordCount
        (stripHtmlWithDOMParser (stripHtmlWithDOMParser "Hello <b>world</b>")) =
       calculateWordCount (stripHtmlWithDOMParser "Hello <b>world</b>")) :=
  ⟨by decide, by decide,
    c6_amended_idempotent_on_normal "Hello <b>world</b>" (by decide) (by decide)⟩

end QuickScore
